import Mathlib

/-!
Verification of the naive Sumcheck protocol implementation.

The development shallowly embeds the Rust sources:
  src/naive_sumcheck/protocol/prover.rs
  src/naive_sumcheck/protocol/verifier.rs
  src/error.rs, src/lib.rs
Machine integers (usize) become Nat; field elements become an arbitrary
commutative ring `F` with decidable equality (the code only uses `+ * pow`,
`0.into()`, `1.into()` and equality); Rust panics become `Except.error` with
the panic message; the crate `Error` enum is embedded as `Error` below.
The external ark-poly collaborators (sparse multivariate / univariate
polynomials) are embedded by their list representations with the operations
the protocol uses: term iteration, evaluation, degree, sparse-univariate
addition (sorted merge that adds coefficients at matching degrees and drops
zero sums) and `from_coefficients_vec` (drop zero coefficients, sort by
degree).
-/

set_option linter.unusedSectionVars false
set_option linter.unnecessarySimpa false
set_option linter.unusedVariables false

namespace Sumcheck

/-! ## The binary-hypercube indexer

`to_binary_vec` in prover.rs is implemented over the decimal/binary *string*
`format!("{:0>width$}", format!("{:b}", i), width = nu)`: the big-endian
binary digits of `i` (the digits of `0` are the single character `0`),
left-padded with `0` characters up to width `nu`, each character mapped to the
field element `0` or `1`. `bitsAux` embeds `format!("{:b}", i)` for `i > 0`;
it carries an explicit fuel argument (any fuel `≥ i` suffices) so that it is
structurally recursive and kernel-evaluable. -/
/-- Big-endian binary digits of `n` (empty for `n = 0`), with fuel. -/
def bitsAuxFuel : Nat → Nat → List Nat
  | 0, _ => []
  | fuel + 1, n => if n = 0 then [] else bitsAuxFuel fuel (n / 2) ++ [n % 2]

/-- Big-endian binary digits of `n`; empty for `n = 0`. -/
def bitsAux (n : Nat) : List Nat := bitsAuxFuel n n

/-- The digit string of `i`: `format!("{:b}", i)`. The digits of `0` are the
single digit `0`. -/
def natBits (i : Nat) : List Nat := if i = 0 then [0] else bitsAux i

/-- Left-pad a digit list with zeroes up to width `nu` (no-op when already at
least that wide): the `format!("{:0>width$}", s)` step. -/
def padTo (nu : Nat) (l : List Nat) : List Nat :=
  List.replicate (nu - l.length) 0 ++ l

variable {F : Type} [CommRing F] [DecidableEq F]

/-- A binary digit as a field element: the `|x| if x == '0' { 0 } else { 1 }`
character map. -/
def ofBit (b : Nat) : F := if b = 0 then 0 else 1

/-- `to_binary_vec` from prover.rs: the big-endian binary representation of
`i`, left-padded with zeroes until the string has `nu` digits, as field
elements. -/
def to_binary_vec (i nu : Nat) : List F :=
  (padTo nu (natBits i)).map ofBit

/-- Big-endian decoding of a digit list back to an integer. -/
def fromBitsBE (l : List Nat) : Nat := l.foldl (fun a b => 2 * a + b) 0

/-! ## The ark-poly collaborators -/
/-- A sparse monomial: a list of (variable index, exponent) pairs.
`ark_poly::multivariate::SparseTerm`. -/
abbrev SparseTerm : Type := List (Nat × Nat)

/-- `SparseTerm::evaluate`: the product of the point coordinates raised to the
exponents. -/
def SparseTerm.evaluate (t : SparseTerm) (point : List F) : F :=
  (t.map (fun vp => point.getD vp.1 0 ^ vp.2)).prod

/-- `SparseTerm::degree`: the sum of the exponents. -/
def SparseTerm.degreeOf (t : SparseTerm) : Nat := (t.map Prod.snd).sum

/-- `ark_poly::multivariate::SparsePolynomial`: a number of variables and a
list of (coefficient, monomial) terms. -/
structure MultiPoly (F : Type) where
  num_vars : Nat
  terms : List (F × SparseTerm)
deriving DecidableEq

/-- `SparsePolynomial::evaluate`: the sum over terms of coefficient times
monomial value. -/
def MultiPoly.evaluate (g : MultiPoly F) (point : List F) : F :=
  (g.terms.map (fun ct => ct.1 * SparseTerm.evaluate ct.2 point)).sum

/-- `ark_poly::univariate::SparsePolynomial`: a list of (degree, coefficient)
pairs. -/
structure UniPoly (F : Type) where
  coeffs : List (Nat × F)
deriving DecidableEq

/-- Sorted merge of two coefficient lists: coefficients at matching degrees
are added and dropped when the sum is zero — the `Add` instance of the sparse
univariate polynomial. Fuel makes it structurally recursive; any fuel at
least the total length suffices. -/
def mergeFuel : Nat → List (Nat × F) → List (Nat × F) → List (Nat × F)
  | 0, xs, ys => xs ++ ys
  | fuel + 1, xs, ys =>
    match xs, ys with
    | [], ys => ys
    | x :: xs', [] => x :: xs'
    | (d1, c1) :: xs', (d2, c2) :: ys' =>
      if d1 < d2 then (d1, c1) :: mergeFuel fuel xs' ((d2, c2) :: ys')
      else if d2 < d1 then (d2, c2) :: mergeFuel fuel ((d1, c1) :: xs') ys'
      else if c1 + c2 = 0 then mergeFuel fuel xs' ys'
      else (d1, c1 + c2) :: mergeFuel fuel xs' ys'

/-- Addition of sparse univariate polynomials. -/
def UniPoly.add (p q : UniPoly F) : UniPoly F :=
  ⟨mergeFuel (p.coeffs.length + q.coeffs.length) p.coeffs q.coeffs⟩

/-- Stable insertion of a (degree, coefficient) pair into a list sorted by
degree. -/
def insertDeg (p : Nat × F) : List (Nat × F) → List (Nat × F)
  | [] => [p]
  | q :: l => if p.1 ≤ q.1 then p :: q :: l else q :: insertDeg p l

/-- Stable sort by degree (the `sort_by` step of `from_coefficients_vec`). -/
def sortByDeg (l : List (Nat × F)) : List (Nat × F) := l.foldr insertDeg []

/-- `SparsePolynomial::from_coefficients_vec`: drop zero coefficients, sort by
degree. -/
def UniPoly.fromCoefficientsVec (l : List (Nat × F)) : UniPoly F :=
  ⟨sortByDeg (l.filter (fun p => ¬ p.2 = 0))⟩

/-- `SparsePolynomial::evaluate`: sum of coefficient times point to the
degree. -/
def UniPoly.evaluate (p : UniPoly F) (x : F) : F :=
  (p.coeffs.map (fun dc => dc.2 * x ^ dc.1)).sum

/-- `Polynomial::degree` of the sparse univariate polynomial: `0` when the
polynomial is zero (empty or all-zero coefficient list), otherwise the degree
of the last stored entry. -/
def UniPoly.degreeOf (p : UniPoly F) : Nat :=
  if p.coeffs.all (fun dc => dc.2 = 0) then 0
  else (p.coeffs.getLast?.map Prod.fst).getD 0

/-! ## The crate error type (src/error.rs) -/
/-- The crate `Error` enum. -/
inductive Error where
  | Reject : Option String → Error
  | IOError : Error
  | OtherError : String → Error
deriving DecidableEq

/-! ## Prover (prover.rs) -/
/-- Prover message: one univariate polynomial per round. -/
structure ProverMsg (F : Type) where
  gi : UniPoly F
deriving DecidableEq

/-- Verifier message: one sampled field challenge. -/
structure VerifierMsg (F : Type) where
  randomness : F
deriving DecidableEq

/-- Prover state: the polynomial, the received challenges, the round counter. -/
structure ProverState (F : Type) where
  g : MultiPoly F
  randomness : List F
  round : Nat
deriving DecidableEq

/-- `ProverState::evaluate_term`, with `ρ` standing for `self.randomness`:
folds over the monomial, keeping the exponent of the variable currently being
solved (`var == ρ.length`) as the `fixed_term`, substituting stored challenges
for smaller variables and hypercube coordinates (`points[var - ρ.length]`)
for larger ones. -/
def evaluate_term (ρ : List F) (term : SparseTerm) (points : List F) :
    F × Option SparseTerm :=
  term.foldl
    (fun acc vp =>
      if vp.1 = ρ.length then (acc.1, some [(vp.1, vp.2)])
      else if vp.1 < ρ.length then (ρ.getD vp.1 0 ^ vp.2 * acc.1, acc.2)
      else (points.getD (vp.1 - ρ.length) 0 ^ vp.2 * acc.1, acc.2))
    (1, none)

/-- `ProverState::evaluate_gi`: folds every term's contribution, a
single-entry univariate polynomial, into one univariate polynomial. -/
def evaluate_gi (g : MultiPoly F) (ρ : List F) (points : List F) : UniPoly F :=
  g.terms.foldl
    (fun sum ct =>
      let ce := evaluate_term ρ ct.2 points
      let current : UniPoly F :=
        match ce.2 with
        | none => UniPoly.fromCoefficientsVec [(0, ct.1 * ce.1)]
        | some ft => UniPoly.fromCoefficientsVec [(ft.degreeOf, ct.1 * ce.1)]
      current.add sum)
    (UniPoly.fromCoefficientsVec [])

/-- The summation body of `ProverState::gen_uni_polynomial` after the incoming
challenge has been absorbed into `ρ`: with `v = num_vars - ρ.length` variables
not yet fixed, sum `evaluate_gi` over the `2^(v-1)` hypercube indices, each
rendered with the width-`v` indexer. (In the source the shift `1 << (v - 1)`
requires `v ≥ 1`, which holds in every honest call.) -/
def gen_uni_body (g : MultiPoly F) (ρ : List F) : UniPoly F :=
  (List.range (2 ^ (g.num_vars - ρ.length - 1))).foldl
    (fun sum i => sum.add (evaluate_gi g ρ (to_binary_vec i (g.num_vars - ρ.length))))
    (UniPoly.fromCoefficientsVec [(0, 0)])

/-- `ProverState::gen_uni_polynomial`: push the incoming challenge (when one
is present) onto the stored randomness, then compute the round polynomial.
The mutation of `self` is rendered by returning the updated state. -/
def gen_uni_polynomial (s : ProverState F) (r : Option F) :
    UniPoly F × ProverState F :=
  let s' : ProverState F :=
    match r with
    | some x => { s with randomness := s.randomness ++ [x] }
    | none => s
  (gen_uni_body s'.g s'.randomness, s')

/-- `ProverState::slow_sum_g`: the sum of `g` over the whole boolean
hypercube. -/
def slow_sum_g (s : ProverState F) : F :=
  ((List.range (2 ^ s.g.num_vars)).map
    (fun i => s.g.evaluate (to_binary_vec i s.g.num_vars))).sum

/-- `IPForSumcheck::prover_init`: panics on a constant polynomial, otherwise
starts at round 0 with no randomness. -/
def prover_init (g : MultiPoly F) : Except String (ProverState F) :=
  if g.num_vars = 0 then
    .error "Proving sumcheck for a constant polynomial is trivial..."
  else .ok ⟨g, [], 0⟩

/-- `IPForSumcheck::prove_round`: the three fatal precondition checks, then
the round polynomial and the round increment. -/
def prove_round (s : ProverState F) (v_msg : Option (VerifierMsg F)) :
    Except String (ProverMsg F × ProverState F) :=
  if s.g.num_vars < s.round then .error "Prover is no longer active..."
  else
    match v_msg with
    | some msg =>
      if s.round = 0 then .error "Prover should go first..."
      else
        let gs := gen_uni_polynomial s (some msg.randomness)
        .ok (⟨gs.1⟩, { gs.2 with round := gs.2.round + 1 })
    | none =>
      if 0 < s.round then .error "Verifier message should not be empty..."
      else
        let gs := gen_uni_polynomial s none
        .ok (⟨gs.1⟩, { gs.2 with round := gs.2.round + 1 })

/-! ## Verifier (verifier.rs) -/
/-- Verifier state. `part_sums` embeds the source field `partial_sums`. -/
structure VerifierState (F : Type) where
  round : Nat
  num_vars : Nat
  finished : Bool
  part_sums : List (UniPoly F)
  randomness : List F
deriving DecidableEq

/-- Verifier output: the sampled challenges and the expected evaluation. -/
structure VerifierOutput (F : Type) where
  r_vec : List F
  expected_evaluation : F
deriving DecidableEq

/-- `max_degrees`: the per-variable maximum exponent over all terms,
accumulated into a table initialised with zeroes. -/
def max_degrees (g : MultiPoly F) : List Nat :=
  g.terms.foldl
    (fun ds ct =>
      ct.2.foldl
        (fun ds' vp => if ds'.getD vp.1 0 < vp.2 then ds'.set vp.1 vp.2 else ds')
        ds)
    (List.replicate g.num_vars 0)

/-- `IPForSumcheck::verifier_init`. -/
def verifier_init (num_variables : Nat) : VerifierState F :=
  ⟨1, num_variables, false, [], []⟩

/-- `IPForSumcheck::verify_round`: fatal when already finished; otherwise
store the sampled challenge `r` (the value drawn from the rng by `sample_r`)
and the received polynomial, and finish exactly when `round == num_vars`. -/
def verify_round (p_msg : ProverMsg F) (s : VerifierState F) (r : F) :
    Except String (Option (VerifierMsg F) × VerifierState F) :=
  if s.finished then
    .error "Incorrect verifier state: Verifier is already finished..."
  else
    let s1 : VerifierState F :=
      { s with
        randomness := s.randomness ++ [r]
        part_sums := s.part_sums ++ [p_msg.gi] }
    let s2 : VerifierState F :=
      if s1.round = s1.num_vars then { s1 with finished := true }
      else { s1 with round := s1.round + 1 }
    .ok (some ⟨r⟩, s2)

/-- The round-consistency loop of `partial_verify`, over the paired stored
polynomials and challenges. -/
def pvLoop : List (UniPoly F × F) → F → Except Error F
  | [], e => .ok e
  | (gi, r) :: rest, e =>
    if ¬ (gi.evaluate 0 + gi.evaluate 1 = e) then
      .error (Error.Reject (some "Prover message is inconsistent with the claim."))
    else pvLoop rest (gi.evaluate r)

/-- `IPForSumcheck::partial_verify`: the structural panics, then the round
consistency check; on success the challenge vector and the folded expected
value. -/
def part_verify (s : VerifierState F) (asserted_sum : F) :
    Except String (Except Error (VerifierOutput F)) :=
  if s.finished = false then .error "Verifier has not finished yet..."
  else if ¬ (s.part_sums.length = s.num_vars) then
    .error "Insufficient number of rounds..."
  else if ¬ (s.randomness.length = s.num_vars) then
    .error "Insufficient random field elements..."
  else
    match pvLoop (s.part_sums.zip s.randomness) asserted_sum with
    | .error e => .ok (.error e)
    | .ok e => .ok (.ok ⟨s.randomness, e⟩)

/-- `IPForSumcheck::verify`: the degree-bound assertion (fatal), then
`partial_verify`, then the oracle query. -/
def verify (g : MultiPoly F) (s : VerifierState F) (asserted_sum : F) :
    Except String (Except Error Unit) :=
  if (List.range s.num_vars).all
      (fun i => decide ((s.part_sums.getD i ⟨[]⟩).degreeOf ≤ (max_degrees g).getD i 0)) then
    match part_verify s asserted_sum with
    | .error msg => .error msg
    | .ok (.ok v_out) =>
      if g.evaluate v_out.r_vec = v_out.expected_evaluation then .ok (.ok ())
      else .ok (.error (Error.Reject (some "Verification failed.")))
    | .ok (.error _) =>
      .ok (.error (Error.Reject (some "Partial verification failed.")))
  else .error "assertion failed: degree bound violated"

/-! ## The honest interaction (naive_sumcheck/test.rs main loop) -/
/-- One full honest exchange loop: each iteration feeds the previous verifier
message to the prover and hands the prover message to the verifier, which
consumes one pre-supplied challenge `r` (the value its rng would sample). -/
def runLoop (ps : ProverState F) (vs : VerifierState F)
    (v_msg : Option (VerifierMsg F)) : List F →
    Except String (ProverState F × VerifierState F)
  | [] => .ok (ps, vs)
  | r :: rest => do
    let pr ← prove_round ps v_msg
    let vr ← verify_round pr.1 vs r
    runLoop pr.2 vr.2 vr.1 rest

/-- The honest protocol: `prover_init`, `num_vars` alternating rounds with the
given challenge sequence, then `verify` against the asserted sum. -/
def runProtocol (g : MultiPoly F) (rs : List F) (asserted_sum : F) :
    Except String (Except Error Unit) := do
  let ps0 ← prover_init g
  let r ← runLoop ps0 (verifier_init g.num_vars) none rs
  verify g r.2 asserted_sum

/-! ## Specification-side abbreviations -/
/-- The honest round polynomial of round `k`: the body of
`gen_uni_polynomial` once the first `k` challenges are stored. -/
def roundPoly (g : MultiPoly F) (rs : List F) (k : Nat) : UniPoly F :=
  gen_uni_body g (rs.take k)

/-- Partial hypercube sum: `g` evaluated at the fixed prefix `ρ` extended by
every width-`w` hypercube point, summed. -/
def hSum (g : MultiPoly F) (ρ : List F) (w : Nat) : F :=
  ((List.range (2 ^ w)).map (fun i => g.evaluate (ρ ++ to_binary_vec i w))).sum

/-- Well-formedness of a multivariate polynomial, guaranteed by
`SparseTerm::new` in ark-poly: each monomial mentions only variables below
`num_vars`, each at most once. -/
def validPoly (g : MultiPoly F) : Prop :=
  ∀ ct ∈ g.terms, (∀ vp ∈ ct.2, vp.1 < g.num_vars) ∧ (ct.2.map Prod.fst).Nodup

instance (g : MultiPoly F) : Decidable (validPoly g) := by
  unfold validPoly; infer_instance

/-- The expected value entering round `i` of the consistency loop:
`asserted_sum` for round 0, and `g_{i-1}(challenge_{i-1})` afterwards. -/
def expectedAt (sums : List (UniPoly F)) (rands : List F) (a : F) : Nat → F
  | 0 => a
  | i + 1 => (sums.getD i ⟨[]⟩).evaluate (rands.getD i 0)

/-- Decidable equality of protocol results, for concrete evaluation. -/
instance exceptDecEq {ε α : Type} [DecidableEq ε] [DecidableEq α] :
    DecidableEq (Except ε α)
  | .error e1, .error e2 =>
    if h : e1 = e2 then .isTrue (by rw [h])
    else .isFalse (fun hc => h (by injection hc))
  | .error _, .ok _ => .isFalse (fun hc => Except.noConfusion hc)
  | .ok _, .error _ => .isFalse (fun hc => Except.noConfusion hc)
  | .ok a1, .ok a2 =>
    if h : a1 = a2 then .isTrue (by rw [h])
    else .isFalse (fun hc => h (by injection hc))

/-- The polynomial `g(x0,x1,x2) = 2 x0^3 + x0 x2 + x1 x2` of the crate's unit
test (Thaler, §4.1), over the integers. -/
def gEx : MultiPoly Int :=
  ⟨3, [(2, [(0, 3)]), (1, [(0, 1), (2, 1)]), (1, [(1, 1), (2, 1)])]⟩

/-- The one-variable polynomial `g(x0) = x0`, over the integers. -/
def xPoly : MultiPoly Int := ⟨1, [(1, [(0, 1)])]⟩

/-- A finished one-round verifier state holding the polynomial `x` and the
challenge 4. -/
def vsEx : VerifierState Int := ⟨1, 1, true, [⟨[(1, 1)]⟩], [4]⟩

/-! ## Univariate polynomial lemmas -/
/-- Evaluation of a raw coefficient list. -/
def coeffsEval (l : List (Nat × F)) (x : F) : F :=
  (l.map (fun dc => dc.2 * x ^ dc.1)).sum

/-! ## Prover evaluation lemmas -/
/-- The univariate degree recorded in a `fixed_term`: 0 when absent. -/
def ftDeg : Option SparseTerm → Nat
  | none => 0
  | some t => t.degreeOf

/-- One update step of the max-degree scan. -/
def degStep (ds : List Nat) (vp : Nat × Nat) : List Nat :=
  if ds.getD vp.1 0 < vp.2 then ds.set vp.1 vp.2 else ds

/-! ## Characterising the honest run -/
/-- The honest list of round polynomials after consuming the challenges `rs`. -/
def roundPolys (g : MultiPoly F) (rs : List F) : List (UniPoly F) :=
  (List.range rs.length).map (fun k => roundPoly g rs k)

/-! ## The round-consistency loop -/
/-- Every round of the consistency loop checks out: `g_i(0) + g_i(1)` equals
the expected value carried into round `i`. -/
def pvOk : List (UniPoly F × F) → F → Prop
  | [], _ => True
  | (gi, r) :: rest, e =>
    gi.evaluate 0 + gi.evaluate 1 = e ∧ pvOk rest (gi.evaluate r)

/-- The expected value left after folding the whole consistency loop. -/
def pvFinal : List (UniPoly F × F) → F → F
  | [], e => e
  | (gi, r) :: rest, _ => pvFinal rest (gi.evaluate r)

/-! ## Lemmas and claim theorems -/

/-! ## List index helpers -/
/-- `getD` on an append stays in the left list while the index is in range. -/
theorem getD_append_lt {α : Type} (l1 l2 : List α) (n : Nat) (d : α)
    (h : n < l1.length) : (l1 ++ l2).getD n d = l1.getD n d := by
  induction l1 generalizing n with
  | nil => simp at h
  | cons a l ih =>
    cases n with
    | zero => rfl
    | succ m =>
      simp only [List.cons_append, List.getD_cons_succ]
      exact ih _ (by simpa using h)

/-- `getD` at the exact length of the left part of an append hits the middle
element. -/
theorem getD_append_len {α : Type} (l1 l2 : List α) (x : α) (d : α) :
    (l1 ++ x :: l2).getD l1.length d = x := by
  induction l1 with
  | nil => rfl
  | cons a l ih => simpa using ih

/-- `getD` after dropping one element shifts the index by one. -/
theorem getD_drop_one {α : Type} (l : List α) (n : Nat) (d : α) :
    (l.drop 1).getD n d = l.getD (n + 1) d := by
  cases l <;> rfl

theorem bitsAuxFuel_indep (n : Nat) : ∀ f g : Nat, n ≤ f → n ≤ g →
    bitsAuxFuel f n = bitsAuxFuel g n := by
  induction n using Nat.strong_induction_on with
  | _ n ih =>
    intro f g hf hg
    cases n with
    | zero =>
      cases f <;> cases g <;> simp [bitsAuxFuel]
    | succ m =>
      cases f with
      | zero => omega
      | succ f' =>
        cases g with
        | zero => omega
        | succ g' =>
          simp only [bitsAuxFuel, if_neg (Nat.succ_ne_zero m)]
          have hlt : (m + 1) / 2 < m + 1 := Nat.div_lt_self (by omega) (by omega)
          rw [ih _ hlt f' g' (by omega) (by omega)]

/-- The defining recursion of `bitsAux`, freed from the fuel. -/
theorem bitsAux_eq (n : Nat) :
    bitsAux n = if n = 0 then [] else bitsAux (n / 2) ++ [n % 2] := by
  cases n with
  | zero => rfl
  | succ m =>
    simp only [bitsAux, bitsAuxFuel, if_neg (Nat.succ_ne_zero m)]
    have hlt : (m + 1) / 2 < m + 1 := Nat.div_lt_self (by omega) (by omega)
    rw [bitsAuxFuel_indep ((m + 1) / 2) m ((m + 1) / 2) (by omega) (by omega)]

theorem UniPoly.evaluate_def (p : UniPoly F) (x : F) :
    p.evaluate x = coeffsEval p.coeffs x := rfl

theorem coeffsEval_nil (x : F) : coeffsEval ([] : List (Nat × F)) x = 0 := rfl

theorem coeffsEval_cons (dc : Nat × F) (l : List (Nat × F)) (x : F) :
    coeffsEval (dc :: l) x = dc.2 * x ^ dc.1 + coeffsEval l x := by
  simp [coeffsEval]

theorem coeffsEval_append (l1 l2 : List (Nat × F)) (x : F) :
    coeffsEval (l1 ++ l2) x = coeffsEval l1 x + coeffsEval l2 x := by
  simp [coeffsEval]

theorem coeffsEval_mergeFuel (x : F) :
    ∀ (fuel : Nat) (xs ys : List (Nat × F)),
      coeffsEval (mergeFuel fuel xs ys) x = coeffsEval xs x + coeffsEval ys x := by
  intro fuel
  induction fuel with
  | zero => intro xs ys; simpa [mergeFuel] using coeffsEval_append xs ys x
  | succ f ih =>
    intro xs ys
    match xs, ys with
    | [], ys => simp [mergeFuel, coeffsEval_nil]
    | x' :: xs', [] => simp [mergeFuel, coeffsEval_nil]
    | (d1, c1) :: xs', (d2, c2) :: ys' =>
      simp only [mergeFuel]
      by_cases h1 : d1 < d2
      · simp only [if_pos h1, coeffsEval_cons, ih]
        ring
      · simp only [if_neg h1]
        by_cases h2 : d2 < d1
        · simp only [if_pos h2, coeffsEval_cons, ih]
          ring
        · have hd : d1 = d2 := by omega
          simp only [if_neg h2]
          by_cases h0 : c1 + c2 = 0
          · have hz : c1 * x ^ d1 + c2 * x ^ d2 = 0 := by
              rw [← hd, ← add_mul, h0, zero_mul]
            simp only [if_pos h0, ih, coeffsEval_cons]
            linear_combination -hz
          · simp only [if_neg h0, coeffsEval_cons, ih, ← hd]
            ring

theorem UniPoly.evaluate_add (p q : UniPoly F) (x : F) :
    (p.add q).evaluate x = p.evaluate x + q.evaluate x := by
  simp [UniPoly.evaluate_def, UniPoly.add, coeffsEval_mergeFuel]

theorem mem_insertDeg (a p : Nat × F) (l : List (Nat × F)) :
    a ∈ insertDeg p l → a = p ∨ a ∈ l := by
  induction l with
  | nil => intro h; simpa [insertDeg] using h
  | cons q l ih =>
    intro h
    rw [show insertDeg p (q :: l)
        = if p.1 ≤ q.1 then p :: q :: l else q :: insertDeg p l from rfl] at h
    by_cases hle : p.1 ≤ q.1
    · rw [if_pos hle] at h
      rcases List.mem_cons.mp h with h1 | h1
      · exact Or.inl h1
      · exact Or.inr h1
    · rw [if_neg hle] at h
      rcases List.mem_cons.mp h with h1 | h1
      · exact Or.inr (by simp [h1])
      · rcases ih h1 with h2 | h2
        · exact Or.inl h2
        · exact Or.inr (List.mem_cons_of_mem _ h2)

theorem mem_sortByDeg (a : Nat × F) (l : List (Nat × F)) :
    a ∈ sortByDeg l → a ∈ l := by
  induction l with
  | nil => intro h; simpa [sortByDeg] using h
  | cons q l ih =>
    intro h
    simp only [sortByDeg, List.foldr_cons] at h
    rcases mem_insertDeg a q (sortByDeg l) h with h' | h'
    · simp [h']
    · exact List.mem_cons_of_mem _ (ih h')

theorem mem_fromCoefficientsVec (a : Nat × F) (l : List (Nat × F)) :
    a ∈ (UniPoly.fromCoefficientsVec l).coeffs → a ∈ l := by
  intro h
  exact List.mem_of_mem_filter (mem_sortByDeg _ _ h)

theorem evaluate_fromCoefficientsVec_single (d : Nat) (c : F) (x : F) :
    (UniPoly.fromCoefficientsVec [(d, c)]).evaluate x = c * x ^ d := by
  by_cases h : c = 0
  · simp [UniPoly.fromCoefficientsVec, UniPoly.evaluate_def, h, sortByDeg,
      coeffsEval_nil]
  · simp [UniPoly.fromCoefficientsVec, UniPoly.evaluate_def, h, sortByDeg,
      insertDeg, coeffsEval]

theorem evaluate_fromCoefficientsVec_nil (x : F) :
    (UniPoly.fromCoefficientsVec ([] : List (Nat × F))).evaluate x = 0 := rfl

theorem fst_le_mergeFuel {D : Nat} :
    ∀ (fuel : Nat) (xs ys : List (Nat × F)),
      (∀ e ∈ xs, e.1 ≤ D) → (∀ e ∈ ys, e.1 ≤ D) →
      ∀ e ∈ mergeFuel fuel xs ys, e.1 ≤ D := by
  intro fuel
  induction fuel with
  | zero =>
    intro xs ys hx hy e he
    rcases List.mem_append.mp (by simpa [mergeFuel] using he) with h | h
    · exact hx e h
    · exact hy e h
  | succ f ih =>
    intro xs ys hx hy e he
    match xs, ys with
    | [], ys => exact hy e (by simpa [mergeFuel] using he)
    | x' :: xs', [] => exact hx e (by simpa [mergeFuel] using he)
    | (d1, c1) :: xs', (d2, c2) :: ys' =>
      simp only [mergeFuel] at he
      by_cases h1 : d1 < d2
      · rw [if_pos h1] at he
        rcases List.mem_cons.mp he with h | h
        · exact h ▸ hx _ (by simp)
        · exact ih xs' _ (fun e' he' => hx e' (by simp [he'])) hy e h
      · rw [if_neg h1] at he
        by_cases h2 : d2 < d1
        · rw [if_pos h2] at he
          rcases List.mem_cons.mp he with h | h
          · exact h ▸ hy _ (by simp)
          · exact ih _ ys' hx (fun e' he' => hy e' (by simp [he'])) e h
        · rw [if_neg h2] at he
          by_cases h0 : c1 + c2 = 0
          · rw [if_pos h0] at he
            exact ih xs' ys' (fun e' he' => hx e' (by simp [he']))
              (fun e' he' => hy e' (by simp [he'])) e he
          · rw [if_neg h0] at he
            rcases List.mem_cons.mp he with h | h
            · exact h ▸ hx (d1, c1) (by simp)
            · exact ih xs' ys' (fun e' he' => hx e' (by simp [he']))
                (fun e' he' => hy e' (by simp [he'])) e h

theorem fst_le_add {D : Nat} (p q : UniPoly F)
    (hp : ∀ e ∈ p.coeffs, e.1 ≤ D) (hq : ∀ e ∈ q.coeffs, e.1 ≤ D) :
    ∀ e ∈ (p.add q).coeffs, e.1 ≤ D :=
  fun e he => fst_le_mergeFuel _ _ _ hp hq e he

theorem degreeOf_le_of_fst_le {D : Nat} (p : UniPoly F)
    (hp : ∀ e ∈ p.coeffs, e.1 ≤ D) : p.degreeOf ≤ D := by
  unfold UniPoly.degreeOf
  by_cases h : p.coeffs.all (fun dc => dc.2 = 0)
  · simp [h]
  · rw [if_neg h]
    match hl : p.coeffs.getLast? with
    | none => simp
    | some e =>
      have : e ∈ p.coeffs := by
        rcases List.mem_getLast?_eq_getLast (l := p.coeffs) (x := e)
          (by simp [hl]) with ⟨h', he⟩
        exact he ▸ List.getLast_mem h'
      simpa using hp e this

/-! ## Binary indexer lemmas -/
theorem bitsAux_zero : bitsAux 0 = [] := rfl

theorem bitsAux_length_le (w : Nat) : ∀ i : Nat, i < 2 ^ w → (bitsAux i).length ≤ w := by
  induction w with
  | zero => intro i hi; interval_cases i; simp [bitsAux_zero]
  | succ w ih =>
    intro i hi
    by_cases h0 : i = 0
    · simp [h0, bitsAux_zero]
    · rw [bitsAux_eq, if_neg h0]
      have hdiv : i / 2 < 2 ^ w := by
        have h2 : (2 : Nat) ^ (w + 1) = 2 * 2 ^ w := by rw [pow_succ]; ring
        omega
      have := ih (i / 2) hdiv
      simp only [List.length_append, List.length_cons, List.length_nil]
      omega

theorem bitsAux_length_pos (i : Nat) (hi : 1 ≤ i) : 1 ≤ (bitsAux i).length := by
  rw [bitsAux_eq, if_neg (by omega)]
  simp

theorem lt_two_pow_bitsAux_length (i : Nat) : i < 2 ^ (bitsAux i).length := by
  induction i using Nat.strong_induction_on with
  | _ i ih =>
    by_cases h0 : i = 0
    · simp [h0, bitsAux_zero]
    · rw [bitsAux_eq, if_neg h0]
      have hlt : i / 2 < i := Nat.div_lt_self (by omega) (by omega)
      have := ih (i / 2) hlt
      simp only [List.length_append, List.length_cons, List.length_nil, pow_succ]
      omega

theorem two_pow_le_bitsAux_length (i : Nat) (hi : 1 ≤ i) :
    2 ^ ((bitsAux i).length - 1) ≤ i := by
  induction i using Nat.strong_induction_on with
  | _ i ih =>
    rw [bitsAux_eq, if_neg (by omega)]
    simp only [List.length_append, List.length_cons, List.length_nil,
      Nat.add_sub_cancel]
    by_cases h1 : i / 2 = 0
    · have : (bitsAux (i / 2)).length = 0 := by simp [h1, bitsAux_zero]
      rw [this]
      simpa using hi
    · have hlt : i / 2 < i := Nat.div_lt_self (by omega) (by omega)
      have hrec := ih (i / 2) hlt (by omega)
      have hpos := bitsAux_length_pos (i / 2) (by omega)
      have : 2 ^ (bitsAux (i / 2)).length
          = 2 * 2 ^ ((bitsAux (i / 2)).length - 1) := by
        conv_lhs => rw [show (bitsAux (i / 2)).length
          = ((bitsAux (i / 2)).length - 1) + 1 from by omega]
        rw [pow_succ]
        ring
      rw [this]
      omega

theorem natBits_length_le (w i : Nat) (hw : 1 ≤ w) (hi : i < 2 ^ w) :
    (natBits i).length ≤ w := by
  by_cases h0 : i = 0
  · simp [h0, natBits]
    omega
  · rw [natBits, if_neg h0]
    exact bitsAux_length_le w i hi

theorem padTo_length (nu : Nat) (l : List Nat) :
    (padTo nu l).length = max nu l.length := by
  simp [padTo]
  omega

theorem to_binary_vec_length (i nu : Nat) :
    (to_binary_vec (F := F) i nu).length = max nu (natBits i).length := by
  simp [to_binary_vec, padTo_length]

theorem padTo_succ (w : Nat) (l : List Nat) (h : l.length ≤ w) :
    padTo (w + 1) l = 0 :: padTo w l := by
  unfold padTo
  rw [show w + 1 - l.length = (w - l.length) + 1 from by omega,
    List.replicate_succ]
  simp

theorem padTo_eq_self (nu : Nat) (l : List Nat) (h : nu ≤ l.length) :
    padTo nu l = l := by
  unfold padTo
  rw [show nu - l.length = 0 from by omega]
  simp

theorem to_binary_vec_cons_zero (w i : Nat) (hw : 1 ≤ w) (hi : i < 2 ^ w) :
    to_binary_vec (F := F) i (w + 1) = 0 :: to_binary_vec i w := by
  unfold to_binary_vec
  rw [padTo_succ w _ (natBits_length_le w i hw hi)]
  simp [ofBit]

theorem replicate_zero_split (k : Nat) (hk : 1 ≤ k) :
    List.replicate k (0 : Nat) = List.replicate (k - 1) 0 ++ [0] := by
  cases k with
  | zero => omega
  | succ m => exact List.replicate_succ' m (0 : Nat)

theorem padTo_step (w i : Nat) (hw : 1 ≤ w) :
    padTo (w + 1) (natBits i) = padTo w (natBits (i / 2)) ++ [i % 2] := by
  by_cases h0 : i = 0
  · subst h0
    rw [show (0 : Nat) / 2 = 0 from rfl, show (0 : Nat) % 2 = 0 from rfl,
      show natBits 0 = [0] from rfl]
    unfold padTo
    simp only [List.length_cons, List.length_nil]
    rw [show w + 1 - 1 = w from rfl, replicate_zero_split w hw]
  · by_cases h1 : i = 1
    · subst h1
      rw [show (1 : Nat) / 2 = 0 from rfl, show (1 : Nat) % 2 = 1 from rfl,
        show natBits 1 = [1] from rfl, show natBits 0 = [0] from rfl]
      unfold padTo
      simp only [List.length_cons, List.length_nil]
      rw [show w + 1 - 1 = w from rfl, replicate_zero_split w hw]
    · have h2 : i / 2 ≠ 0 := by omega
      rw [natBits, if_neg h0, natBits, if_neg h2, bitsAux_eq, if_neg h0]
      unfold padTo
      simp only [List.length_append, List.length_cons, List.length_nil]
      rw [show w + 1 - ((bitsAux (i / 2)).length + 1)
        = w - (bitsAux (i / 2)).length from by omega]
      simp [List.append_assoc]

theorem bitsAux_pow_add (w : Nat) (hw : 1 ≤ w) :
    ∀ i : Nat, i < 2 ^ w → bitsAux (2 ^ w + i) = 1 :: padTo w (natBits i) := by
  induction w, hw using Nat.le_induction with
  | base =>
    intro i hi
    interval_cases i <;> rfl
  | succ w hw ih =>
    intro i hi
    have hne : 2 ^ (w + 1) + i ≠ 0 := by positivity
    rw [bitsAux_eq, if_neg hne]
    have hdiv2 : (2 ^ (w + 1) + i) / 2 = 2 ^ w + i / 2 := by
      rw [show 2 ^ (w + 1) = 2 ^ w * 2 from by rw [pow_succ]]
      omega
    have hmod2 : (2 ^ (w + 1) + i) % 2 = i % 2 := by
      rw [show 2 ^ (w + 1) = 2 ^ w * 2 from by rw [pow_succ]]
      omega
    have hdivlt : i / 2 < 2 ^ w := by
      have h2 : (2 : Nat) ^ (w + 1) = 2 * 2 ^ w := by rw [pow_succ]; ring
      omega
    rw [hdiv2, hmod2, ih (i / 2) hdivlt, padTo_step w i hw]
    simp

theorem to_binary_vec_cons_one (w i : Nat) (hw : 1 ≤ w) (hi : i < 2 ^ w) :
    to_binary_vec (F := F) (2 ^ w + i) (w + 1) = 1 :: to_binary_vec i w := by
  unfold to_binary_vec
  have hne : 2 ^ w + i ≠ 0 := by positivity
  rw [natBits, if_neg hne, bitsAux_pow_add w hw i hi]
  have hlen : (1 :: padTo w (natBits i)).length = w + 1 := by
    simp only [List.length_cons, padTo_length]
    have := natBits_length_le w i hw hi
    omega
  rw [padTo_eq_self _ _ (le_of_eq hlen.symm)]
  simp [ofBit]

theorem foldlBits_eq (l : List Nat) :
    ∀ a : Nat, l.foldl (fun a b => 2 * a + b) a = a * 2 ^ l.length + fromBitsBE l := by
  induction l with
  | nil => intro a; simp [fromBitsBE]
  | cons b l ih =>
    intro a
    show List.foldl (fun a b => 2 * a + b) (2 * a + b) l
        = a * 2 ^ (b :: l).length + fromBitsBE (b :: l)
    rw [ih (2 * a + b)]
    have hb : fromBitsBE (b :: l) = b * 2 ^ l.length + fromBitsBE l := by
      show List.foldl (fun a b => 2 * a + b) (2 * 0 + b) l = _
      rw [show 2 * 0 + b = b from by omega, ih b]
    rw [hb, List.length_cons]
    ring

theorem fromBitsBE_append (l1 l2 : List Nat) :
    fromBitsBE (l1 ++ l2) = fromBitsBE l1 * 2 ^ l2.length + fromBitsBE l2 := by
  unfold fromBitsBE
  rw [List.foldl_append]
  exact foldlBits_eq l2 _

theorem fromBitsBE_replicate_zero (k : Nat) :
    fromBitsBE (List.replicate k 0) = 0 := by
  induction k with
  | zero => rfl
  | succ k ih =>
    rw [List.replicate_succ]
    unfold fromBitsBE at ih ⊢
    simpa using ih

theorem fromBitsBE_bitsAux (i : Nat) : fromBitsBE (bitsAux i) = i := by
  induction i using Nat.strong_induction_on with
  | _ i ih =>
    by_cases h0 : i = 0
    · simp [h0, bitsAux_zero, fromBitsBE]
    · rw [bitsAux_eq, if_neg h0, fromBitsBE_append]
      have hlt : i / 2 < i := Nat.div_lt_self (by omega) (by omega)
      rw [ih (i / 2) hlt]
      simp only [List.length_cons, List.length_nil, pow_one]
      have : fromBitsBE [i % 2] = i % 2 := by simp [fromBitsBE]
      rw [this]
      omega

theorem fromBitsBE_natBits (i : Nat) : fromBitsBE (natBits i) = i := by
  by_cases h0 : i = 0
  · simp [h0, natBits, fromBitsBE]
  · rw [natBits, if_neg h0]
    exact fromBitsBE_bitsAux i

theorem fromBitsBE_padTo_natBits (nu i : Nat) :
    fromBitsBE (padTo nu (natBits i)) = i := by
  unfold padTo
  rw [fromBitsBE_append, fromBitsBE_replicate_zero, fromBitsBE_natBits]
  simp

theorem bitsAux_mem (i : Nat) : ∀ b ∈ bitsAux i, b = 0 ∨ b = 1 := by
  induction i using Nat.strong_induction_on with
  | _ i ih =>
    intro b hb
    by_cases h0 : i = 0
    · rw [h0, bitsAux_zero] at hb
      simp at hb
    · rw [bitsAux_eq, if_neg h0] at hb
      rcases List.mem_append.mp hb with h | h
      · exact ih (i / 2) (Nat.div_lt_self (by omega) (by omega)) b h
      · have : b = i % 2 := by simpa using h
        omega

theorem padTo_natBits_mem (nu i : Nat) :
    ∀ b ∈ padTo nu (natBits i), b = 0 ∨ b = 1 := by
  intro b hb
  rcases List.mem_append.mp hb with h | h
  · left
    exact List.eq_of_mem_replicate h
  · by_cases h0 : i = 0
    · rw [h0, natBits] at h
      simp at h
      simp [h]
    · rw [natBits, if_neg h0] at h
      exact bitsAux_mem i b h

theorem getD_append_ge {α : Type} (l1 l2 : List α) (n : Nat) (d : α)
    (h : l1.length ≤ n) : (l1 ++ l2).getD n d = l2.getD (n - l1.length) d := by
  induction l1 generalizing n with
  | nil => simp
  | cons a l ih =>
    cases n with
    | zero => simp at h
    | succ m =>
      simp only [List.cons_append, List.getD_cons_succ, List.length_cons]
      rw [ih m (by simpa using h)]
      congr 1
      omega

theorem SparseTerm.evaluate_nil (point : List F) :
    SparseTerm.evaluate ([] : SparseTerm) point = 1 := rfl

theorem SparseTerm.evaluate_cons (vp : Nat × Nat) (t : SparseTerm)
    (point : List F) :
    SparseTerm.evaluate (vp :: t) point
      = point.getD vp.1 0 ^ vp.2 * SparseTerm.evaluate t point := by
  simp [SparseTerm.evaluate]

/-- The coordinate read during `evaluate_term` equals the coordinate of the
assembled point `ρ ++ x :: points.drop 1`. -/
theorem coord_eq (ρ points : List F) (x : F) (v : Nat) :
    (ρ ++ x :: points.drop 1).getD v 0
      = if v = ρ.length then x
        else if v < ρ.length then ρ.getD v 0
        else points.getD (v - ρ.length) 0 := by
  by_cases h1 : v = ρ.length
  · rw [if_pos h1, h1]
    exact getD_append_len ρ _ x 0
  · rw [if_neg h1]
    by_cases h2 : v < ρ.length
    · rw [if_pos h2]
      exact getD_append_lt ρ _ v 0 h2
    · rw [if_neg h2]
      rw [getD_append_ge ρ _ v 0 (by omega)]
      rw [show v - ρ.length = (v - ρ.length - 1) + 1 from by omega,
        List.getD_cons_succ, getD_drop_one]

/-- The `evaluate_term` fold invariant: with at most one occurrence of the
solved variable between the pending monomial and the accumulator, the running
product times `x` to the recorded degree computes the monomial value at the
assembled point. -/
theorem evaluate_term_fold (ρ points : List F) (x : F) :
    ∀ (t : SparseTerm) (p : F) (f : Option SparseTerm),
      (f = none ∨ t.countP (fun vp => decide (vp.1 = ρ.length)) = 0) →
      t.countP (fun vp => decide (vp.1 = ρ.length)) ≤ 1 →
      (t.foldl
        (fun acc vp =>
          if vp.1 = ρ.length then (acc.1, some [(vp.1, vp.2)])
          else if vp.1 < ρ.length then (ρ.getD vp.1 0 ^ vp.2 * acc.1, acc.2)
          else (points.getD (vp.1 - ρ.length) 0 ^ vp.2 * acc.1, acc.2))
        (p, f)).1
        * x ^ ftDeg ((t.foldl
        (fun acc vp =>
          if vp.1 = ρ.length then (acc.1, some [(vp.1, vp.2)])
          else if vp.1 < ρ.length then (ρ.getD vp.1 0 ^ vp.2 * acc.1, acc.2)
          else (points.getD (vp.1 - ρ.length) 0 ^ vp.2 * acc.1, acc.2))
        (p, f)).2)
      = p * x ^ ftDeg f * SparseTerm.evaluate t (ρ ++ x :: points.drop 1) := by
  intro t
  induction t with
  | nil =>
    intro p f _ _
    simp [SparseTerm.evaluate_nil]
  | cons vp t' ih =>
    intro p f hor hle
    rw [List.foldl_cons, SparseTerm.evaluate_cons, coord_eq]
    by_cases h1 : vp.1 = ρ.length
    · rw [if_pos h1]
      simp only [if_pos h1]
      have hcnt : t'.countP (fun vp => decide (vp.1 = ρ.length)) = 0 := by
        rw [List.countP_cons] at hle
        simp [h1] at hle
        rw [List.countP_eq_zero]
        intro y hy
        simpa using hle y.1 y.2 hy
      have hcons : (vp :: t').countP (fun vp => decide (vp.1 = ρ.length)) ≠ 0 := by
        rw [List.countP_cons]
        simp [h1]
      have hf : f = none := by
        rcases hor with h | h
        · exact h
        · exact absurd h hcons
      rw [ih p (some [(vp.1, vp.2)]) (Or.inr hcnt) (by omega)]
      subst hf
      simp only [ftDeg, SparseTerm.degreeOf, List.map_cons, List.map_nil,
        List.sum_cons, List.sum_nil, pow_zero]
      ring
    · rw [if_neg h1]
      simp only [if_neg h1]
      have hcnt : (vp :: t').countP (fun vp => decide (vp.1 = ρ.length))
          = t'.countP (fun vp => decide (vp.1 = ρ.length)) := by
        rw [List.countP_cons]
        simp [h1]
      by_cases h2 : vp.1 < ρ.length
      · rw [if_pos h2]
        simp only [if_pos h2]
        rw [ih (ρ.getD vp.1 0 ^ vp.2 * p) f
          (by rcases hor with h | h; exact Or.inl h; exact Or.inr (by omega))
          (by omega)]
        ring
      · rw [if_neg h2]
        simp only [if_neg h2]
        rw [ih (points.getD (vp.1 - ρ.length) 0 ^ vp.2 * p) f
          (by rcases hor with h | h; exact Or.inl h; exact Or.inr (by omega))
          (by omega)]
        ring

/-- `evaluate_term` computes the monomial value at the assembled point
`ρ ++ x :: points.drop 1`, split into a coefficient and the power of `x`
recorded in the fixed term. -/
theorem evaluate_term_spec (ρ points : List F) (x : F) (t : SparseTerm)
    (h : t.countP (fun vp => decide (vp.1 = ρ.length)) ≤ 1) :
    (evaluate_term ρ t points).1 * x ^ ftDeg (evaluate_term ρ t points).2
      = SparseTerm.evaluate t (ρ ++ x :: points.drop 1) := by
  have := evaluate_term_fold ρ points x t 1 none (Or.inl rfl) h
  simpa [evaluate_term, ftDeg] using this

/-- The fixed term produced by `evaluate_term` is either absent or the
singleton monomial of an occurrence of the solved variable in `t`. -/
theorem evaluate_term_ft (ρ : List F) (points : List F) (t : SparseTerm) :
    (evaluate_term ρ t points).2 = none ∨
      ∃ vp ∈ t, vp.1 = ρ.length ∧ (evaluate_term ρ t points).2 = some [(vp.1, vp.2)] := by
  suffices h : ∀ (acc : F × Option SparseTerm),
      (t.foldl
        (fun acc vp =>
          if vp.1 = ρ.length then (acc.1, some [(vp.1, vp.2)])
          else if vp.1 < ρ.length then (ρ.getD vp.1 0 ^ vp.2 * acc.1, acc.2)
          else (points.getD (vp.1 - ρ.length) 0 ^ vp.2 * acc.1, acc.2))
        acc).2 = acc.2 ∨
      ∃ vp ∈ t, vp.1 = ρ.length ∧
        (t.foldl
        (fun acc vp =>
          if vp.1 = ρ.length then (acc.1, some [(vp.1, vp.2)])
          else if vp.1 < ρ.length then (ρ.getD vp.1 0 ^ vp.2 * acc.1, acc.2)
          else (points.getD (vp.1 - ρ.length) 0 ^ vp.2 * acc.1, acc.2))
        acc).2 = some [(vp.1, vp.2)] by
    rcases h (1, none) with h' | h'
    · exact Or.inl h'
    · exact Or.inr h'
  induction t with
  | nil => intro acc; exact Or.inl rfl
  | cons vp t' ih =>
    intro acc
    rw [List.foldl_cons]
    by_cases h1 : vp.1 = ρ.length
    · simp only [if_pos h1]
      rcases ih (acc.1, some [(vp.1, vp.2)]) with h' | h'
      · exact Or.inr ⟨vp, by simp, h1, h'⟩
      · rcases h' with ⟨vp', hmem, hvar, heq⟩
        exact Or.inr ⟨vp', by simp [hmem], hvar, heq⟩
    · simp only [if_neg h1]
      by_cases h2 : vp.1 < ρ.length
      · simp only [if_pos h2]
        rcases ih (ρ.getD vp.1 0 ^ vp.2 * acc.1, acc.2) with h' | h'
        · exact Or.inl h'
        · rcases h' with ⟨vp', hmem, hvar, heq⟩
          exact Or.inr ⟨vp', by simp [hmem], hvar, heq⟩
      · simp only [if_neg h2]
        rcases ih (points.getD (vp.1 - ρ.length) 0 ^ vp.2 * acc.1, acc.2) with h' | h'
        · exact Or.inl h'
        · rcases h' with ⟨vp', hmem, hvar, heq⟩
          exact Or.inr ⟨vp', by simp [hmem], hvar, heq⟩

/-- The per-term contribution inside `evaluate_gi`, written through `ftDeg`. -/
theorem evaluate_gi_current (ρ points : List F) (c : F) (t : SparseTerm) :
    (match (evaluate_term ρ t points).2 with
      | none => UniPoly.fromCoefficientsVec [(0, c * (evaluate_term ρ t points).1)]
      | some ft =>
        UniPoly.fromCoefficientsVec [(ft.degreeOf, c * (evaluate_term ρ t points).1)])
      = UniPoly.fromCoefficientsVec
          [(ftDeg (evaluate_term ρ t points).2, c * (evaluate_term ρ t points).1)] := by
  cases h : (evaluate_term ρ t points).2 <;> simp [ftDeg, h]

/-- `evaluate_gi` evaluated at `x` equals `g` evaluated at the assembled
point `ρ ++ x :: points.drop 1`. -/
theorem evaluate_gi_eval (g : MultiPoly F) (ρ points : List F) (x : F)
    (h : ∀ ct ∈ g.terms, ct.2.countP (fun vp => decide (vp.1 = ρ.length)) ≤ 1) :
    (evaluate_gi g ρ points).evaluate x = g.evaluate (ρ ++ x :: points.drop 1) := by
  suffices hgen : ∀ (ts : List (F × SparseTerm)) (z : UniPoly F),
      (∀ ct ∈ ts, ct.2.countP (fun vp => decide (vp.1 = ρ.length)) ≤ 1) →
      (ts.foldl
        (fun sum ct =>
          let ce := evaluate_term ρ ct.2 points
          let current : UniPoly F :=
            match ce.2 with
            | none => UniPoly.fromCoefficientsVec [(0, ct.1 * ce.1)]
            | some ft => UniPoly.fromCoefficientsVec [(ft.degreeOf, ct.1 * ce.1)]
          current.add sum) z).evaluate x
      = z.evaluate x
        + (ts.map (fun ct =>
            ct.1 * SparseTerm.evaluate ct.2 (ρ ++ x :: points.drop 1))).sum by
    rw [show evaluate_gi g ρ points
      = g.terms.foldl
        (fun sum ct =>
          let ce := evaluate_term ρ ct.2 points
          let current : UniPoly F :=
            match ce.2 with
            | none => UniPoly.fromCoefficientsVec [(0, ct.1 * ce.1)]
            | some ft => UniPoly.fromCoefficientsVec [(ft.degreeOf, ct.1 * ce.1)]
          current.add sum) (UniPoly.fromCoefficientsVec []) from rfl]
    rw [hgen g.terms _ h, evaluate_fromCoefficientsVec_nil, zero_add]
    rfl
  intro ts
  induction ts with
  | nil => intro z _; simp
  | cons ct ts' ih =>
    intro z hts
    rw [List.foldl_cons]
    simp only
    rw [ih _ (fun ct' h' => hts ct' (List.mem_cons_of_mem _ h')),
      UniPoly.evaluate_add, evaluate_gi_current,
      evaluate_fromCoefficientsVec_single,
      mul_assoc, evaluate_term_spec ρ points x ct.2 (hts ct (by simp))]
    simp only [List.map_cons, List.sum_cons]
    ring

/-- Every coefficient entry of `evaluate_gi` has degree at most `D`, when
every exponent of the solved variable in `g` is at most `D`. -/
theorem evaluate_gi_fst_le {D : Nat} (g : MultiPoly F) (ρ points : List F)
    (hD : ∀ ct ∈ g.terms, ∀ vp ∈ ct.2, vp.1 = ρ.length → vp.2 ≤ D) :
    ∀ e ∈ (evaluate_gi g ρ points).coeffs, e.1 ≤ D := by
  suffices hgen : ∀ (ts : List (F × SparseTerm)) (z : UniPoly F),
      (∀ ct ∈ ts, ∀ vp ∈ ct.2, vp.1 = ρ.length → vp.2 ≤ D) →
      (∀ e ∈ z.coeffs, e.1 ≤ D) →
      ∀ e ∈ (ts.foldl
        (fun sum ct =>
          let ce := evaluate_term ρ ct.2 points
          let current : UniPoly F :=
            match ce.2 with
            | none => UniPoly.fromCoefficientsVec [(0, ct.1 * ce.1)]
            | some ft => UniPoly.fromCoefficientsVec [(ft.degreeOf, ct.1 * ce.1)]
          current.add sum) z).coeffs, e.1 ≤ D by
    exact hgen g.terms _ hD (by simp [UniPoly.fromCoefficientsVec, sortByDeg])
  intro ts
  induction ts with
  | nil => intro z _ hz; exact hz
  | cons ct ts' ih =>
    intro z hts hz
    rw [List.foldl_cons]
    simp only
    refine ih _ (fun ct' h' => hts ct' (List.mem_cons_of_mem _ h')) ?_
    rw [evaluate_gi_current]
    refine fst_le_add _ _ ?_ hz
    intro e he
    have he' : e = (ftDeg (evaluate_term ρ ct.2 points).2,
        ct.1 * (evaluate_term ρ ct.2 points).1) := by
      have hmem := mem_fromCoefficientsVec _ _ he
      simpa using hmem
    rw [he']
    show ftDeg (evaluate_term ρ ct.2 points).2 ≤ D
    rcases evaluate_term_ft ρ points ct.2 with hft | ⟨vp, hmem, hvar, hft⟩
    · simp [hft, ftDeg]
    · rw [hft]
      simp only [ftDeg, SparseTerm.degreeOf, List.map_cons, List.map_nil,
        List.sum_cons, List.sum_nil, add_zero]
      exact hts ct (by simp) vp hmem hvar

/-! ## Round polynomial lemmas -/
theorem foldl_add_eval {α : Type} (f : α → UniPoly F) (x : F) :
    ∀ (l : List α) (z : UniPoly F),
      (l.foldl (fun sum a => sum.add (f a)) z).evaluate x
        = z.evaluate x + (l.map (fun a => (f a).evaluate x)).sum := by
  intro l
  induction l with
  | nil => intro z; simp
  | cons a l ih =>
    intro z
    rw [List.foldl_cons, ih, UniPoly.evaluate_add]
    simp only [List.map_cons, List.sum_cons]
    ring

theorem foldl_add_fst_le {α : Type} {D : Nat} (f : α → UniPoly F) :
    ∀ (l : List α) (z : UniPoly F),
      (∀ a ∈ l, ∀ e ∈ (f a).coeffs, e.1 ≤ D) →
      (∀ e ∈ z.coeffs, e.1 ≤ D) →
      ∀ e ∈ (l.foldl (fun sum a => sum.add (f a)) z).coeffs, e.1 ≤ D := by
  intro l
  induction l with
  | nil => intro z _ hz; exact hz
  | cons a l ih =>
    intro z hl hz
    rw [List.foldl_cons]
    exact ih _ (fun a' h' => hl a' (List.mem_cons_of_mem _ h'))
      (fst_le_add _ _ hz (hl a (by simp)))

theorem evaluate_fromCoefficientsVec_zero (x : F) :
    (UniPoly.fromCoefficientsVec [((0 : Nat), (0 : F))]).evaluate x = 0 := by
  rw [evaluate_fromCoefficientsVec_single]
  ring

/-- `gen_uni_body` evaluated at `x` is the sum, over the `2^(v-1)` hypercube
indices rendered at width `v`, of `g` at the stored challenges, then `x`,
then the tail of the rendered index. -/
theorem gen_uni_body_eval (g : MultiPoly F) (ρ : List F) (x : F)
    (h : ∀ ct ∈ g.terms, ct.2.countP (fun vp => decide (vp.1 = ρ.length)) ≤ 1) :
    (gen_uni_body g ρ).evaluate x
      = ((List.range (2 ^ (g.num_vars - ρ.length - 1))).map
          (fun i => g.evaluate
            (ρ ++ x :: (to_binary_vec (F := F) i (g.num_vars - ρ.length)).drop 1))).sum := by
  unfold gen_uni_body
  rw [foldl_add_eval, evaluate_fromCoefficientsVec_zero, zero_add]
  congr 1
  apply List.map_congr_left
  intro i _
  exact evaluate_gi_eval g ρ _ x h

/-- Every coefficient entry of `gen_uni_body` is bounded by any bound on the
exponents of the solved variable. -/
theorem gen_uni_body_fst_le {D : Nat} (g : MultiPoly F) (ρ : List F)
    (hD : ∀ ct ∈ g.terms, ∀ vp ∈ ct.2, vp.1 = ρ.length → vp.2 ≤ D) :
    ∀ e ∈ (gen_uni_body g ρ).coeffs, e.1 ≤ D := by
  unfold gen_uni_body
  refine foldl_add_fst_le _ _ _ (fun i _ => evaluate_gi_fst_le g ρ _ hD) ?_
  intro e he
  have := mem_fromCoefficientsVec _ _ he
  simp at this
  simp [this]

/-! ## Evaluation ignores coordinates beyond every variable -/
theorem term_evaluate_extend (t : SparseTerm) (l1 l2 : List F)
    (hv : ∀ vp ∈ t, vp.1 < l1.length) :
    SparseTerm.evaluate t (l1 ++ l2) = SparseTerm.evaluate t l1 := by
  unfold SparseTerm.evaluate
  congr 1
  apply List.map_congr_left
  intro vp hvp
  rw [getD_append_lt l1 l2 vp.1 0 (hv vp hvp)]

theorem multi_evaluate_extend (g : MultiPoly F) (l1 l2 : List F)
    (hv : ∀ ct ∈ g.terms, ∀ vp ∈ ct.2, vp.1 < l1.length) :
    g.evaluate (l1 ++ l2) = g.evaluate l1 := by
  unfold MultiPoly.evaluate
  congr 1
  apply List.map_congr_left
  intro ct hct
  rw [term_evaluate_extend ct.2 l1 l2 (hv ct hct)]

/-! ## The max-degree scan -/
theorem getD_set_self {α : Type} (l : List α) (i : Nat) (a d : α)
    (h : i < l.length) : (l.set i a).getD i d = a := by
  induction l generalizing i with
  | nil => simp at h
  | cons b l ih =>
    cases i with
    | zero => rfl
    | succ m => exact ih m (by simpa using h)

theorem getD_set_ne {α : Type} (l : List α) (i k : Nat) (a d : α)
    (h : i ≠ k) : (l.set i a).getD k d = l.getD k d := by
  induction l generalizing i k with
  | nil => simp
  | cons b l ih =>
    cases i with
    | zero =>
      cases k with
      | zero => omega
      | succ m => rfl
    | succ m =>
      cases k with
      | zero => rfl
      | succ m' => exact ih m m' (by omega)

theorem max_degrees_def (g : MultiPoly F) :
    max_degrees g
      = g.terms.foldl (fun ds ct => ct.2.foldl degStep ds)
          (List.replicate g.num_vars 0) := rfl

theorem degStep_length (ds : List Nat) (vp : Nat × Nat) :
    (degStep ds vp).length = ds.length := by
  unfold degStep
  split <;> simp

theorem degStep_mono (ds : List Nat) (vp : Nat × Nat) (k : Nat) :
    ds.getD k 0 ≤ (degStep ds vp).getD k 0 := by
  unfold degStep
  split
  · by_cases hk : vp.1 = k
    · subst hk
      by_cases hlen : vp.1 < ds.length
      · rw [getD_set_self _ _ _ _ hlen]
        omega
      · rw [List.set_eq_of_length_le (by omega)]
    · rw [getD_set_ne _ _ _ _ _ hk]
  · exact le_refl _

theorem degFold_length (t : SparseTerm) :
    ∀ ds : List Nat, (t.foldl degStep ds).length = ds.length := by
  induction t with
  | nil => intro ds; rfl
  | cons vp t ih =>
    intro ds
    rw [List.foldl_cons, ih, degStep_length]

theorem degFold_mono (t : SparseTerm) :
    ∀ (ds : List Nat) (k : Nat), ds.getD k 0 ≤ (t.foldl degStep ds).getD k 0 := by
  induction t with
  | nil => intro ds k; exact le_refl _
  | cons vp t ih =>
    intro ds k
    rw [List.foldl_cons]
    exact le_trans (degStep_mono ds vp k) (ih _ k)

theorem degFold_covers (t : SparseTerm) :
    ∀ (ds : List Nat) (vp : Nat × Nat), vp ∈ t → vp.1 < ds.length →
      vp.2 ≤ (t.foldl degStep ds).getD vp.1 0 := by
  induction t with
  | nil => intro ds vp h; simp at h
  | cons u t ih =>
    intro ds vp hmem hlen
    rw [List.foldl_cons]
    rcases List.mem_cons.mp hmem with h | h
    · subst h
      refine le_trans ?_ (degFold_mono t _ vp.1)
      unfold degStep
      split
      · rw [getD_set_self _ _ _ _ hlen]
      · omega
    · exact ih _ vp h (by rw [degStep_length]; exact hlen)

theorem termsFold_length (ts : List (F × SparseTerm)) :
    ∀ ds : List Nat,
      (ts.foldl (fun ds ct => ct.2.foldl degStep ds) ds).length = ds.length := by
  induction ts with
  | nil => intro ds; rfl
  | cons ct ts ih =>
    intro ds
    rw [List.foldl_cons, ih, degFold_length]

theorem termsFold_mono (ts : List (F × SparseTerm)) :
    ∀ (ds : List Nat) (k : Nat),
      ds.getD k 0 ≤ (ts.foldl (fun ds ct => ct.2.foldl degStep ds) ds).getD k 0 := by
  induction ts with
  | nil => intro ds k; exact le_refl _
  | cons ct ts ih =>
    intro ds k
    rw [List.foldl_cons]
    exact le_trans (degFold_mono ct.2 ds k) (ih _ k)

theorem termsFold_covers (ts : List (F × SparseTerm)) :
    ∀ (ds : List Nat) (ct : F × SparseTerm) (vp : Nat × Nat),
      ct ∈ ts → vp ∈ ct.2 → vp.1 < ds.length →
      vp.2 ≤ (ts.foldl (fun ds ct => ct.2.foldl degStep ds) ds).getD vp.1 0 := by
  induction ts with
  | nil => intro ds ct vp h; simp at h
  | cons ct' ts ih =>
    intro ds ct vp hct hvp hlen
    rw [List.foldl_cons]
    rcases List.mem_cons.mp hct with h | h
    · subst h
      exact le_trans (degFold_covers ct.2 ds vp hvp hlen) (termsFold_mono ts _ vp.1)
    · exact ih _ ct vp h hvp (by rw [degFold_length]; exact hlen)

/-- Every exponent of a variable within range is accounted for by the
`max_degrees` table. -/
theorem le_max_degrees (g : MultiPoly F) (ct : F × SparseTerm) (vp : Nat × Nat)
    (hct : ct ∈ g.terms) (hvp : vp ∈ ct.2) (hv : vp.1 < g.num_vars) :
    vp.2 ≤ (max_degrees g).getD vp.1 0 := by
  rw [max_degrees_def]
  exact termsFold_covers g.terms _ ct vp hct hvp (by simpa using hv)

/-- The degree-bound invariant for the honest round polynomial: the degree of
`gen_uni_body g ρ` is at most the `max_degrees` entry of the variable being
solved. -/
theorem gen_uni_body_degree_le (g : MultiPoly F) (ρ : List F)
    (hj : ρ.length < g.num_vars) :
    (gen_uni_body g ρ).degreeOf ≤ (max_degrees g).getD ρ.length 0 := by
  refine degreeOf_le_of_fst_le _ (gen_uni_body_fst_le g ρ ?_)
  intro ct hct vp hvp hvar
  rw [← hvar]
  exact le_max_degrees g ct vp hct hvp (by omega)

/-! ## Partial hypercube sums -/
/-- A monomial with distinct variables mentions the solved variable at most
once. -/
theorem countP_var_le_one (t : SparseTerm) (j : Nat)
    (h : (t.map Prod.fst).Nodup) :
    t.countP (fun vp => decide (vp.1 = j)) ≤ 1 := by
  induction t with
  | nil => simp
  | cons vp t ih =>
    rw [List.map_cons, List.nodup_cons] at h
    rw [List.countP_cons]
    by_cases hj : vp.1 = j
    · have h0 : t.countP (fun vp => decide (vp.1 = j)) = 0 := by
        rw [List.countP_eq_zero]
        intro u hu
        simp only [decide_eq_true_eq]
        intro hu1
        exact h.1 (List.mem_map.mpr ⟨u, hu, by omega⟩)
      simp [h0, hj]
    · simpa [hj] using ih h.2

theorem validPoly_countP (g : MultiPoly F) (hval : validPoly g) (j : Nat) :
    ∀ ct ∈ g.terms, ct.2.countP (fun vp => decide (vp.1 = j)) ≤ 1 :=
  fun ct hct => countP_var_le_one ct.2 j (hval ct hct).2

theorem to_binary_vec_zero_zero : (to_binary_vec (F := F) 0 0) = [0] := by
  simp [to_binary_vec, natBits, padTo, ofBit]

theorem to_binary_vec_zero_one : (to_binary_vec (F := F) 0 1) = [0] := by
  simp [to_binary_vec, natBits, padTo, ofBit]

theorem to_binary_vec_one_one : (to_binary_vec (F := F) 1 1) = [1] := by
  simp [to_binary_vec, natBits, padTo, ofBit, bitsAux]
  rfl

/-- The base case of the partial hypercube sum: with no free variable left,
the width-0 indexer still renders the single index 0 as `[0]`, and the extra
coordinate is ignored as soon as every variable lies inside `ρ`. -/
theorem hSum_zero (g : MultiPoly F) (ρ : List F)
    (hv : ∀ ct ∈ g.terms, ∀ vp ∈ ct.2, vp.1 < ρ.length) :
    hSum g ρ 0 = g.evaluate ρ := by
  unfold hSum
  rw [show (2 : Nat) ^ 0 = 1 from rfl, show List.range 1 = [0] from rfl,
    List.map_cons, List.map_nil, List.sum_cons, List.sum_nil, add_zero,
    to_binary_vec_zero_zero]
  exact multi_evaluate_extend g ρ [0] hv

/-- Splitting the partial hypercube sum on the first free coordinate. -/
theorem hSum_split (g : MultiPoly F) (ρ : List F) (w : Nat)
    (hv : ∀ ct ∈ g.terms, ∀ vp ∈ ct.2, vp.1 < ρ.length + w + 1) :
    hSum g ρ (w + 1) = hSum g (ρ ++ [0]) w + hSum g (ρ ++ [1]) w := by
  unfold hSum
  rw [show (2 : Nat) ^ (w + 1) = 2 ^ w + 2 ^ w from by rw [pow_succ]; ring,
    List.range_add, List.map_append, List.sum_append]
  congr 1
  · apply congrArg
    apply List.map_congr_left
    intro i hi
    have hi' : i < 2 ^ w := List.mem_range.mp hi
    by_cases hw : w = 0
    · subst hw
      interval_cases i
      rw [to_binary_vec_zero_one, to_binary_vec_zero_zero]
      refine (multi_evaluate_extend g (ρ ++ [0]) [0] ?_).symm
      intro ct hct vp hvp
      have := hv ct hct vp hvp
      simp
      omega
    · rw [to_binary_vec_cons_zero w i (by omega) hi']
      rw [show ρ ++ (0 : F) :: to_binary_vec i w
        = (ρ ++ [0]) ++ to_binary_vec i w from by simp]
  · rw [List.map_map]
    apply congrArg
    apply List.map_congr_left
    intro i hi
    have hi' : i < 2 ^ w := List.mem_range.mp hi
    by_cases hw : w = 0
    · subst hw
      interval_cases i
      show g.evaluate (ρ ++ to_binary_vec (2 ^ 0 + 0) (0 + 1))
        = g.evaluate (ρ ++ [1] ++ to_binary_vec 0 0)
      rw [show (2 : Nat) ^ 0 + 0 = 1 from rfl, to_binary_vec_one_one,
        to_binary_vec_zero_zero]
      refine (multi_evaluate_extend g (ρ ++ [1]) [0] ?_).symm
      intro ct hct vp hvp
      have := hv ct hct vp hvp
      simp
      omega
    · show g.evaluate (ρ ++ to_binary_vec (2 ^ w + i) (w + 1))
        = g.evaluate (ρ ++ [1] ++ to_binary_vec i w)
      rw [to_binary_vec_cons_one w i (by omega) hi']
      rw [show ρ ++ (1 : F) :: to_binary_vec i w
        = (ρ ++ [1]) ++ to_binary_vec i w from by simp]

/-- The round identity: the honest round polynomial evaluated at `x` is the
partial hypercube sum of `g` with prefix `ρ ++ [x]` over the remaining
`v - 1` variables. -/
theorem gen_uni_body_hSum (g : MultiPoly F) (ρ : List F) (x : F)
    (hval : validPoly g) (hj : ρ.length < g.num_vars) :
    (gen_uni_body g ρ).evaluate x
      = hSum g (ρ ++ [x]) (g.num_vars - ρ.length - 1) := by
  rw [gen_uni_body_eval g ρ x (validPoly_countP g hval ρ.length)]
  unfold hSum
  apply congrArg
  apply List.map_congr_left
  intro i hi
  have hi' : i < 2 ^ (g.num_vars - ρ.length - 1) := List.mem_range.mp hi
  by_cases hv1 : g.num_vars - ρ.length = 1
  · rw [hv1] at hi' ⊢
    interval_cases i
    rw [to_binary_vec_zero_one, to_binary_vec_zero_zero]
    rw [show ρ ++ (x : F) :: List.drop 1 [(0 : F)] = ρ ++ [x] from by simp]
    refine (multi_evaluate_extend g (ρ ++ [x]) [0] ?_).symm
    intro ct hct vp hvp
    have := (hval ct hct).1 vp hvp
    simp
    omega
  · have hv2 : 2 ≤ g.num_vars - ρ.length := by omega
    have hcz := to_binary_vec_cons_zero (F := F)
      (g.num_vars - ρ.length - 1) i (by omega) hi'
    rw [show (g.num_vars - ρ.length - 1) + 1 = g.num_vars - ρ.length
      from by omega] at hcz
    rw [hcz]
    rw [show ((0 : F) :: to_binary_vec i (g.num_vars - ρ.length - 1)).drop 1
      = to_binary_vec (F := F) i (g.num_vars - ρ.length - 1) from rfl]
    rw [show ρ ++ (x : F) :: to_binary_vec i (g.num_vars - ρ.length - 1)
      = (ρ ++ [x]) ++ to_binary_vec i (g.num_vars - ρ.length - 1) from by simp]

theorem prove_round_ok_none (s : ProverState F)
    (h1 : ¬ s.g.num_vars < s.round) (h2 : s.round = 0) :
    prove_round s none
      = .ok (⟨gen_uni_body s.g s.randomness⟩, ⟨s.g, s.randomness, s.round + 1⟩) := by
  unfold prove_round
  rw [if_neg h1]
  simp only [if_neg (by omega : ¬ 0 < s.round)]
  rfl

theorem prove_round_ok_some (s : ProverState F) (m : VerifierMsg F)
    (h1 : ¬ s.g.num_vars < s.round) (h2 : s.round ≠ 0) :
    prove_round s (some m)
      = .ok (⟨gen_uni_body s.g (s.randomness ++ [m.randomness])⟩,
          ⟨s.g, s.randomness ++ [m.randomness], s.round + 1⟩) := by
  unfold prove_round
  rw [if_neg h1]
  simp only [if_neg h2]
  rfl

theorem verify_round_ok (p_msg : ProverMsg F) (s : VerifierState F) (r : F)
    (h : s.finished = false) :
    verify_round p_msg s r
      = .ok (some ⟨r⟩,
          if s.round = s.num_vars then
            ⟨s.round, s.num_vars, true, s.part_sums ++ [p_msg.gi], s.randomness ++ [r]⟩
          else
            ⟨s.round + 1, s.num_vars, false, s.part_sums ++ [p_msg.gi],
              s.randomness ++ [r]⟩) := by
  unfold verify_round
  rw [if_neg (by simp [h])]
  simp only [h]

theorem roundPolys_take_append (g : MultiPoly F) (done : List F) (r : F) :
    roundPolys g (done ++ [r]) = roundPolys g done ++ [gen_uni_body g done] := by
  unfold roundPolys roundPoly
  rw [List.length_append, List.length_cons, List.length_nil, List.range_succ,
    List.map_append, List.map_cons, List.map_nil]
  congr 1
  · apply List.map_congr_left
    intro k hk
    have hk' : k < done.length := List.mem_range.mp hk
    rw [List.take_append_of_le_length (by omega)]
  · rw [List.take_left]

theorem except_bind_ok {ε α β : Type} (a : α) (f : α → Except ε β) :
    Except.bind (.ok a) f = f a := rfl

theorem runLoop_cons (ps : ProverState F) (vs : VerifierState F)
    (v_msg : Option (VerifierMsg F)) (r : F) (rest : List F) :
    runLoop ps vs v_msg (r :: rest)
      = Except.bind (prove_round ps v_msg)
          (fun pr => Except.bind (verify_round pr.1 vs r)
            (fun vr => runLoop pr.2 vr.2 vr.1 rest)) := rfl

/-- The invariant of the honest interaction loop: after consuming the
challenges `done`, the prover holds all but the last challenge and counts
`done.length` rounds; the verifier holds all of `done`, the honest round
polynomials, and is finished exactly when all `num_vars` rounds are in. -/
theorem runLoop_go (g : MultiPoly F) (hn : 1 ≤ g.num_vars) :
    ∀ (todo done : List F), done.length + todo.length ≤ g.num_vars →
      runLoop (⟨g, done.dropLast, done.length⟩ : ProverState F)
        ⟨min (done.length + 1) g.num_vars, g.num_vars,
          decide (done.length = g.num_vars), roundPolys g done, done⟩
        (done.getLast?.map (fun r => ⟨r⟩)) todo
      = .ok (⟨g, (done ++ todo).dropLast, done.length + todo.length⟩,
          ⟨min (done.length + todo.length + 1) g.num_vars, g.num_vars,
            decide (done.length + todo.length = g.num_vars),
            roundPolys g (done ++ todo), done ++ todo⟩) := by
  intro todo
  induction todo with
  | nil =>
    intro done h
    simp [runLoop]
  | cons r rest ih =>
    intro done h
    have hlen : done.length < g.num_vars := by
      have := h
      simp only [List.length_cons] at this
      omega
    have hprove : prove_round (⟨g, done.dropLast, done.length⟩ : ProverState F)
        (done.getLast?.map (fun r => ⟨r⟩))
        = .ok (⟨gen_uni_body g done⟩, ⟨g, done, done.length + 1⟩) := by
      clear h ih
      cases done with
      | nil =>
        rw [show (([] : List F).getLast?.map (fun r => (⟨r⟩ : VerifierMsg F)))
          = none from rfl]
        rw [prove_round_ok_none _
          (by show ¬ g.num_vars < ([] : List F).length; simp) rfl]
        rfl
      | cons d ds =>
        have hne : d :: ds ≠ [] := by simp
        have hle : ¬ g.num_vars < (d :: ds).length := by omega
        rw [List.getLast?_eq_getLast _ hne]
        rw [show Option.map (fun r => (⟨r⟩ : VerifierMsg F))
          (some ((d :: ds).getLast hne)) = some ⟨(d :: ds).getLast hne⟩ from rfl]
        rw [prove_round_ok_some _ _ (by exact hle) (by simp)]
        rw [show (⟨g, (d :: ds).dropLast, (d :: ds).length⟩ :
          ProverState F).randomness = (d :: ds).dropLast from rfl,
          List.dropLast_append_getLast hne]
    rw [runLoop_cons, hprove, except_bind_ok]
    rw [show ((⟨gen_uni_body g done⟩, ⟨g, done, done.length + 1⟩) :
      ProverMsg F × ProverState F).1 = ⟨gen_uni_body g done⟩ from rfl]
    rw [verify_round_ok _ _ _
      (by show decide (done.length = g.num_vars) = false
          rw [decide_eq_false_iff_not]
          omega)]
    rw [except_bind_ok]
    have hmin : min (done.length + 1) g.num_vars = done.length + 1 := by omega
    rw [hmin]
    have hstep : (if done.length + 1 = g.num_vars then
          (⟨done.length + 1, g.num_vars, true,
            roundPolys g done ++ [(⟨gen_uni_body g done⟩ : ProverMsg F).gi],
            done ++ [r]⟩ : VerifierState F)
        else
          ⟨done.length + 1 + 1, g.num_vars, false,
            roundPolys g done ++ [(⟨gen_uni_body g done⟩ : ProverMsg F).gi],
            done ++ [r]⟩)
        = ⟨min ((done ++ [r]).length + 1) g.num_vars, g.num_vars,
            decide ((done ++ [r]).length = g.num_vars),
            roundPolys g (done ++ [r]), done ++ [r]⟩ := by
      rw [show (⟨gen_uni_body g done⟩ : ProverMsg F).gi = gen_uni_body g done
        from rfl, ← roundPolys_take_append]
      by_cases hfin : done.length + 1 = g.num_vars
      · rw [if_pos hfin]
        simp only [List.length_append, List.length_cons, List.length_nil]
        congr 1
        · omega
        · rw [show done.length + 1 = g.num_vars from hfin]
          simp
      · rw [if_neg hfin]
        simp only [List.length_append, List.length_cons, List.length_nil]
        congr 1
        · omega
        · rw [eq_comm, decide_eq_false_iff_not]
          omega
    simp only at hstep ⊢
    rw [hstep]
    have hps : (⟨g, done, done.length + 1⟩ : ProverState F)
        = ⟨g, (done ++ [r]).dropLast, (done ++ [r]).length⟩ := by
      rw [List.dropLast_concat]
      simp
    have hvm : (some (⟨r⟩ : VerifierMsg F))
        = (done ++ [r]).getLast?.map (fun r => ⟨r⟩) := by
      rw [List.getLast?_concat]
      rfl
    rw [hps, hvm, ih (done ++ [r])
      (by
        simp only [List.length_append, List.length_cons, List.length_nil]
        simp only [List.length_cons] at h
        omega)]
    rw [show (done ++ [r]) ++ rest = done ++ r :: rest from by simp]
    rw [show (done ++ [r]).length + rest.length
      = done.length + (r :: rest).length from by
        simp only [List.length_append, List.length_cons, List.length_nil]
        omega]

/-- The honest loop from the initial states. -/
theorem runLoop_run (g : MultiPoly F) (rs : List F) (hn : 1 ≤ g.num_vars)
    (hlen : rs.length ≤ g.num_vars) :
    runLoop (⟨g, [], 0⟩ : ProverState F) (verifier_init g.num_vars) none rs
      = .ok (⟨g, rs.dropLast, rs.length⟩,
          ⟨min (rs.length + 1) g.num_vars, g.num_vars,
            decide (rs.length = g.num_vars), roundPolys g rs, rs⟩) := by
  have := runLoop_go g hn rs [] (by simpa using hlen)
  simp only [List.length_nil, List.dropLast_nil, List.getLast?_nil,
    Option.map_none, List.nil_append, Nat.zero_add] at this
  rw [show (verifier_init g.num_vars : VerifierState F)
    = ⟨min (0 + 1) g.num_vars, g.num_vars, decide ((0 : Nat) = g.num_vars),
        roundPolys g [], []⟩ from by
      unfold verifier_init
      congr 1
      · omega
      · rw [eq_comm, decide_eq_false_iff_not]
        omega]
  rw [show roundPolys g ([] : List F) = [] from rfl] at *
  exact this

theorem pvLoop_of_pvOk :
    ∀ (prs : List (UniPoly F × F)) (e : F), pvOk prs e →
      pvLoop prs e = .ok (pvFinal prs e) := by
  intro prs
  induction prs with
  | nil => intro e _; rfl
  | cons p rest ih =>
    intro e h
    obtain ⟨gi, r⟩ := p
    obtain ⟨h1, h2⟩ := h
    unfold pvLoop
    rw [if_neg (by simpa using h1)]
    exact ih _ h2

theorem pvLoop_of_not_pvOk :
    ∀ (prs : List (UniPoly F × F)) (e : F), ¬ pvOk prs e →
      pvLoop prs e
        = .error (Error.Reject (some "Prover message is inconsistent with the claim.")) := by
  intro prs
  induction prs with
  | nil => intro e h; exact absurd trivial h
  | cons p rest ih =>
    intro e h
    obtain ⟨gi, r⟩ := p
    unfold pvLoop
    by_cases h1 : gi.evaluate 0 + gi.evaluate 1 = e
    · rw [if_neg (by simpa using h1)]
      refine ih _ ?_
      intro h2
      exact h ⟨h1, h2⟩
    · rw [if_pos (by simpa using h1)]

/-- The chain argument: in an honest run the consistency loop succeeds from
every suffix, carrying the partial hypercube sum, and folds to the full
evaluation of `g` at the challenge vector. -/
theorem pv_chain (g : MultiPoly F) (rs : List F) (hval : validPoly g)
    (hn : rs.length = g.num_vars) (h1 : 1 ≤ g.num_vars) :
    ∀ m, m ≤ rs.length →
      pvOk (((List.range' (rs.length - m) m).map (fun k => roundPoly g rs k)).zip
          (rs.drop (rs.length - m)))
        (hSum g (rs.take (rs.length - m)) m)
      ∧ pvFinal
          (((List.range' (rs.length - m) m).map (fun k => roundPoly g rs k)).zip
            (rs.drop (rs.length - m)))
          (hSum g (rs.take (rs.length - m)) m)
        = g.evaluate rs := by
  intro m
  induction m with
  | zero =>
    intro _
    constructor
    · simp [pvOk]
    · show pvFinal ([].zip (rs.drop (rs.length - 0))) _ = _
      rw [show (([] : List (UniPoly F)).zip (rs.drop (rs.length - 0)))
        = [] from rfl]
      rw [show pvFinal ([] : List (UniPoly F × F))
          (hSum g (rs.take (rs.length - 0)) 0)
        = hSum g (rs.take (rs.length - 0)) 0 from rfl]
      rw [show rs.length - 0 = rs.length from rfl, List.take_length]
      refine hSum_zero g rs ?_
      intro ct hct vp hvp
      have := (hval ct hct).1 vp hvp
      omega
  | succ m ih =>
    intro hm
    have hk : rs.length - (m + 1) < rs.length := by omega
    set k := rs.length - (m + 1) with hkdef
    have hk1 : rs.length - m = k + 1 := by omega
    have htake : (rs.take k).length = k := by
      rw [List.length_take]
      omega
    have hjlt : (rs.take k).length < g.num_vars := by omega
    have hcnt : g.num_vars - (rs.take k).length - 1 = m := by omega
    have heval : ∀ x : F, (roundPoly g rs k).evaluate x
        = hSum g (rs.take k ++ [x]) m := by
      intro x
      unfold roundPoly
      rw [gen_uni_body_hSum g (rs.take k) x hval hjlt, htake]
      rw [show g.num_vars - k - 1 = m from by omega]
    have hsplit : hSum g (rs.take k) (m + 1)
        = hSum g (rs.take k ++ [0]) m + hSum g (rs.take k ++ [1]) m := by
      refine hSum_split g (rs.take k) m ?_
      intro ct hct vp hvp
      have := (hval ct hct).1 vp hvp
      omega
    have htakestep : rs.take k ++ [rs[k]] = rs.take (k + 1) := by
      rw [List.take_succ, List.getElem?_eq_getElem hk]
      rfl
    rw [List.range'_succ, List.map_cons, List.drop_eq_getElem_cons hk,
      List.zip_cons_cons]
    constructor
    · show (roundPoly g rs k).evaluate 0 + (roundPoly g rs k).evaluate 1
          = hSum g (rs.take k) (m + 1)
        ∧ pvOk _ ((roundPoly g rs k).evaluate (rs[k]))
      constructor
      · rw [heval 0, heval 1, hsplit]
      · rw [heval (rs[k]), htakestep, ← hk1]
        exact (ih (by omega)).1
    · show pvFinal _ _ = g.evaluate rs
      rw [show pvFinal
          (((roundPoly g rs k), rs[k]) ::
            ((List.range' (k + 1) m).map (fun k => roundPoly g rs k)).zip
              (rs.drop (k + 1)))
          (hSum g (rs.take k) (m + 1))
        = pvFinal
            (((List.range' (k + 1) m).map (fun k => roundPoly g rs k)).zip
              (rs.drop (k + 1)))
            ((roundPoly g rs k).evaluate (rs[k])) from rfl]
      rw [heval (rs[k]), htakestep, ← hk1]
      exact (ih (by omega)).2

/-! ## Bridges between the loop form and the indexed form -/
theorem expectedAt_cons (g0 : UniPoly F) (sums : List (UniPoly F)) (r0 : F)
    (rands : List F) (a : F) (i : Nat) :
    expectedAt (g0 :: sums) (r0 :: rands) a (i + 1)
      = expectedAt sums rands (g0.evaluate r0) i := by
  cases i with
  | zero => rfl
  | succ j =>
    show ((g0 :: sums).getD (j + 1) ⟨[]⟩).evaluate ((r0 :: rands).getD (j + 1) 0)
      = (sums.getD j ⟨[]⟩).evaluate (rands.getD j 0)
    rw [List.getD_cons_succ, List.getD_cons_succ]

theorem pvOk_iff_indexed :
    ∀ (sums : List (UniPoly F)) (rands : List F) (a : F),
      sums.length = rands.length →
      (pvOk (sums.zip rands) a ↔
        ∀ i < sums.length,
          (sums.getD i ⟨[]⟩).evaluate 0 + (sums.getD i ⟨[]⟩).evaluate 1
            = expectedAt sums rands a i) := by
  intro sums
  induction sums with
  | nil =>
    intro rands a _
    simp [pvOk]
  | cons g0 sums ih =>
    intro rands a hlen
    match rands with
    | [] => simp at hlen
    | r0 :: rands =>
      rw [List.zip_cons_cons]
      show (g0.evaluate 0 + g0.evaluate 1 = a ∧ pvOk (sums.zip rands) (g0.evaluate r0)) ↔ _
      rw [ih rands (g0.evaluate r0) (by simpa using hlen)]
      constructor
      · rintro ⟨h0, hrest⟩ i hi
        cases i with
        | zero => exact h0
        | succ j =>
          rw [List.getD_cons_succ, expectedAt_cons]
          exact hrest j (by simpa using hi)
      · intro h
        refine ⟨h 0 (by simp), ?_⟩
        intro j hj
        have := h (j + 1) (by simpa using hj)
        rw [List.getD_cons_succ, expectedAt_cons] at this
        exact this

theorem pvFinal_eq_expectedAt :
    ∀ (sums : List (UniPoly F)) (rands : List F) (a : F),
      sums.length = rands.length →
      pvFinal (sums.zip rands) a = expectedAt sums rands a sums.length := by
  intro sums
  induction sums with
  | nil => intro rands a _; rfl
  | cons g0 sums ih =>
    intro rands a hlen
    match rands with
    | [] => simp at hlen
    | r0 :: rands =>
      rw [List.zip_cons_cons]
      show pvFinal (sums.zip rands) (g0.evaluate r0) = _
      rw [ih rands (g0.evaluate r0) (by simpa using hlen), List.length_cons,
        expectedAt_cons]

/-! ## Success-shape lemmas for the remaining operations -/
theorem part_verify_checks (s : VerifierState F) (a : F)
    (hf : s.finished = true) (hps : s.part_sums.length = s.num_vars)
    (hr : s.randomness.length = s.num_vars) :
    part_verify s a
      = match pvLoop (s.part_sums.zip s.randomness) a with
        | .error e => .ok (.error e)
        | .ok e => .ok (.ok ⟨s.randomness, e⟩) := by
  unfold part_verify
  rw [if_neg (by simp [hf]), if_neg (by simp [hps]), if_neg (by simp [hr])]

theorem prover_init_ok (g : MultiPoly F) (h : g.num_vars ≠ 0) :
    prover_init g = .ok (⟨g, [], 0⟩ : ProverState F) := by
  unfold prover_init
  rw [if_neg h]

theorem runProtocol_def (g : MultiPoly F) (rs : List F) (a : F) :
    runProtocol g rs a
      = Except.bind (prover_init g)
          (fun ps0 => Except.bind (runLoop ps0 (verifier_init g.num_vars) none rs)
            (fun r => verify g r.2 a)) := rfl

/-- Inversion of a successful `prove_round`: the polynomial is untouched, the
round counter advances by one, the incoming challenge (when present) is
appended, and the message carries the round polynomial of the updated
randomness. -/
theorem prove_round_err_active (s : ProverState F)
    (v_msg : Option (VerifierMsg F)) (h1 : s.g.num_vars < s.round) :
    prove_round s v_msg = .error "Prover is no longer active..." := by
  unfold prove_round
  rw [if_pos h1]

theorem prove_round_err_first (s : ProverState F) (m : VerifierMsg F)
    (h1 : ¬ s.g.num_vars < s.round) (h2 : s.round = 0) :
    prove_round s (some m) = .error "Prover should go first..." := by
  unfold prove_round
  rw [if_neg h1]
  simp only [if_pos h2]

theorem prove_round_err_empty (s : ProverState F)
    (h1 : ¬ s.g.num_vars < s.round) (h2 : 0 < s.round) :
    prove_round s none = .error "Verifier message should not be empty..." := by
  unfold prove_round
  rw [if_neg h1]
  simp only [if_pos h2]

theorem prove_round_inv (s : ProverState F) (v_msg : Option (VerifierMsg F))
    (msg : ProverMsg F) (s' : ProverState F)
    (h : prove_round s v_msg = .ok (msg, s')) :
    s'.g = s.g ∧ s'.round = s.round + 1 ∧
    s'.randomness = s.randomness
      ++ (match v_msg with | some m => [m.randomness] | none => []) ∧
    msg.gi = gen_uni_body s.g s'.randomness := by
  match v_msg with
  | some m =>
    by_cases h1 : s.g.num_vars < s.round
    · rw [prove_round_err_active s (some m) h1] at h
      exact absurd h (by simp)
    · by_cases h2 : s.round = 0
      · rw [prove_round_err_first s m h1 h2] at h
        exact absurd h (by simp)
      · rw [prove_round_ok_some s m h1 h2] at h
        injection h with h
        injection h with hmsg hstate
        subst hmsg
        subst hstate
        exact ⟨rfl, rfl, rfl, rfl⟩
  | none =>
    by_cases h1 : s.g.num_vars < s.round
    · rw [prove_round_err_active s none h1] at h
      exact absurd h (by simp)
    · by_cases h2 : 0 < s.round
      · rw [prove_round_err_empty s h1 h2] at h
        exact absurd h (by simp)
      · rw [prove_round_ok_none s h1 (by omega)] at h
        injection h with h
        injection h with hmsg hstate
        subst hmsg
        subst hstate
        exact ⟨rfl, rfl, by simp, rfl⟩

theorem roundPolys_length (g : MultiPoly F) (rs : List F) :
    (roundPolys g rs).length = rs.length := by
  simp [roundPolys]

theorem roundPolys_getD (g : MultiPoly F) (rs : List F) (i : Nat)
    (h : i < rs.length) :
    (roundPolys g rs).getD i ⟨[]⟩ = roundPoly g rs i := by
  unfold roundPolys
  rw [List.getD_eq_getElem?_getD, List.getElem?_map, List.getElem?_range h]
  rfl

theorem slow_sum_hSum (g : MultiPoly F) :
    slow_sum_g (⟨g, [], 0⟩ : ProverState F) = hSum g [] g.num_vars := by
  unfold slow_sum_g hSum
  apply congrArg
  apply List.map_congr_left
  intro i _
  rw [List.nil_append]

/-- The verifier accepts the honest final state. -/
theorem verify_honest (g : MultiPoly F) (rs : List F) (hval : validPoly g)
    (hn : 1 ≤ g.num_vars) (hlen : rs.length = g.num_vars) :
    verify g ⟨g.num_vars, g.num_vars, true, roundPolys g rs, rs⟩
      (slow_sum_g (⟨g, [], 0⟩ : ProverState F)) = .ok (.ok ()) := by
  have hchain := pv_chain g rs hval hlen hn rs.length (le_refl _)
  rw [Nat.sub_self, List.drop_zero, List.take_zero] at hchain
  have hzip : ((List.range' 0 rs.length).map (fun k => roundPoly g rs k)).zip rs
      = (roundPolys g rs).zip rs := by
    unfold roundPolys
    rw [List.range_eq_range']
  rw [hzip] at hchain
  have hsum : hSum g [] rs.length
      = slow_sum_g (⟨g, [], 0⟩ : ProverState F) := by
    rw [slow_sum_hSum, hlen]
  rw [hsum] at hchain
  have hdeg : ((List.range g.num_vars).all (fun i =>
      decide (((roundPolys g rs).getD i ⟨[]⟩).degreeOf
        ≤ (max_degrees g).getD i 0))) = true := by
    rw [List.all_eq_true]
    intro i hi
    have hi' : i < g.num_vars := List.mem_range.mp hi
    rw [decide_eq_true_eq, roundPolys_getD g rs i (by omega)]
    unfold roundPoly
    have htl : (rs.take i).length = i := by
      rw [List.length_take]
      omega
    have hb := gen_uni_body_degree_le g (rs.take i) (by omega)
    rw [htl] at hb
    exact hb
  unfold verify
  rw [if_pos hdeg]
  rw [part_verify_checks _ _ rfl (by rw [roundPolys_length]; exact hlen) hlen]
  rw [show ((⟨g.num_vars, g.num_vars, true, roundPolys g rs, rs⟩ :
    VerifierState F).part_sums.zip
      (⟨g.num_vars, g.num_vars, true, roundPolys g rs, rs⟩ :
        VerifierState F).randomness) = (roundPolys g rs).zip rs from rfl]
  rw [pvLoop_of_pvOk _ _ hchain.1, hchain.2]
  show (if g.evaluate rs = g.evaluate rs then
      (Except.ok (Except.ok ()) : Except String (Except Error Unit))
    else Except.ok (Except.error (Error.Reject (some "Verification failed."))))
    = Except.ok (Except.ok ())
  rw [if_pos rfl]

/-- C3: `part_verify` on a finished state with `num_vars` stored partial sums
and challenges rejects with reason "Prover message is inconsistent with the
claim." exactly when some round `i` has `g_i(0) + g_i(1) ≠ expected_i`, where
`expected_0 = asserted_sum` and `expected_{i+1} = g_i(challenge_i)`; otherwise
it returns the full challenge vector together with
`expected_{num_vars} = g_{num_vars-1}(challenge_{num_vars-1})`. -/
theorem C3_partial_verify (s : VerifierState F) (a : F)
    (hf : s.finished = true) (hps : s.part_sums.length = s.num_vars)
    (hr : s.randomness.length = s.num_vars) :
    ((part_verify s a
        = .ok (.error (Error.Reject
            (some "Prover message is inconsistent with the claim."))))
      ↔ ∃ i < s.num_vars,
          ¬ ((s.part_sums.getD i ⟨[]⟩).evaluate 0
              + (s.part_sums.getD i ⟨[]⟩).evaluate 1
            = expectedAt s.part_sums s.randomness a i))
    ∧ ((∀ i < s.num_vars,
          (s.part_sums.getD i ⟨[]⟩).evaluate 0
              + (s.part_sums.getD i ⟨[]⟩).evaluate 1
            = expectedAt s.part_sums s.randomness a i) →
        part_verify s a = .ok (.ok ⟨s.randomness,
          expectedAt s.part_sums s.randomness a s.num_vars⟩))
    ∧ (1 ≤ s.num_vars →
        expectedAt s.part_sums s.randomness a s.num_vars
          = (s.part_sums.getD (s.num_vars - 1) ⟨[]⟩).evaluate
              (s.randomness.getD (s.num_vars - 1) 0)) := by
  have hlen : s.part_sums.length = s.randomness.length := by omega
  have hbr := pvOk_iff_indexed s.part_sums s.randomness a hlen
  rw [part_verify_checks s a hf hps hr]
  have hlast : 1 ≤ s.num_vars →
      expectedAt s.part_sums s.randomness a s.num_vars
        = (s.part_sums.getD (s.num_vars - 1) ⟨[]⟩).evaluate
            (s.randomness.getD (s.num_vars - 1) 0) := by
    intro h1
    rw [show s.num_vars = (s.num_vars - 1) + 1 from by omega]
    rfl
  by_cases hok : pvOk (s.part_sums.zip s.randomness) a
  · have hchecks := hbr.mp hok
    rw [pvLoop_of_pvOk _ _ hok]
    refine ⟨⟨fun hcon => ?_, fun hcon => ?_⟩, fun _ => ?_, hlast⟩
    · simp at hcon
    · obtain ⟨i, hi, hne⟩ := hcon
      exact absurd (hchecks i (by omega)) hne
    · rw [pvFinal_eq_expectedAt _ _ _ hlen, hps]
  · have hnex : ∃ i < s.part_sums.length,
        ¬ ((s.part_sums.getD i ⟨[]⟩).evaluate 0
            + (s.part_sums.getD i ⟨[]⟩).evaluate 1
          = expectedAt s.part_sums s.randomness a i) := by
      by_contra hcon
      push_neg at hcon
      exact hok (hbr.mpr fun i hi => hcon i hi)
    rw [pvLoop_of_not_pvOk _ _ hok]
    refine ⟨⟨fun _ => ?_, fun _ => rfl⟩, fun hall => ?_, hlast⟩
    · obtain ⟨i, hi, hne⟩ := hnex
      exact ⟨i, by omega, hne⟩
    · exact absurd (hbr.mpr fun i hi => hall i (by omega)) hok

/-- Witness for C3: the finished one-round state for `g(x0) = x0`, asserted
sum 1, challenge 4. -/
theorem C3_partial_verify_witness :
    vsEx.finished = true
    ∧ vsEx.part_sums.length = vsEx.num_vars
    ∧ vsEx.randomness.length = vsEx.num_vars
    ∧ (∀ i < vsEx.num_vars,
        (vsEx.part_sums.getD i ⟨[]⟩).evaluate 0
            + (vsEx.part_sums.getD i ⟨[]⟩).evaluate 1
          = expectedAt vsEx.part_sums vsEx.randomness 1 i)
    ∧ part_verify vsEx 1
        = .ok (.ok ⟨vsEx.randomness,
            expectedAt vsEx.part_sums vsEx.randomness 1 vsEx.num_vars⟩) :=
  ⟨by decide, by decide, by decide, by decide,
    (C3_partial_verify vsEx 1 (by decide) (by decide) (by decide)).2.1 (by decide)⟩

/-- C4: `verify`, once the degree-bound assertion has passed: a successful
`part_verify` output `(r_vec, expected_evaluation)` yields `Ok(())` exactly
when `g` evaluated at `r_vec` equals `expected_evaluation` and otherwise the
rejection "Verification failed."; a rejection of `part_verify` is propagated
as a rejection of `verify`. -/
theorem C4_verify (g : MultiPoly F) (s : VerifierState F) (a : F)
    (hdeg : ((List.range s.num_vars).all (fun i =>
      decide ((s.part_sums.getD i ⟨[]⟩).degreeOf
        ≤ (max_degrees g).getD i 0))) = true) :
    (∀ out : VerifierOutput F, part_verify s a = .ok (.ok out) →
      verify g s a = if g.evaluate out.r_vec = out.expected_evaluation
        then .ok (.ok ())
        else .ok (.error (Error.Reject (some "Verification failed."))))
    ∧ (∀ e : Error, part_verify s a = .ok (.error e) →
      verify g s a
        = .ok (.error (Error.Reject (some "Partial verification failed.")))) := by
  constructor
  · intro out hpv
    unfold verify
    rw [if_pos hdeg, hpv]
  · intro e hpv
    unfold verify
    rw [if_pos hdeg, hpv]

/-- Witness for C4: the finished one-round state for `g(x0) = x0` with
asserted sum 1; the oracle query returns 4 and matches. -/
theorem C4_verify_witness :
    ((List.range vsEx.num_vars).all (fun i =>
      decide ((vsEx.part_sums.getD i ⟨[]⟩).degreeOf
        ≤ (max_degrees xPoly).getD i 0))) = true
    ∧ part_verify vsEx 1 = .ok (.ok ⟨[4], 4⟩)
    ∧ verify xPoly vsEx 1
        = (if xPoly.evaluate [4] = (4 : Int) then .ok (.ok ())
          else .ok (.error (Error.Reject (some "Verification failed.")))) :=
  ⟨by decide, by decide,
    (C4_verify xPoly vsEx 1 (by decide)).1 ⟨[4], 4⟩ (by decide)⟩

/-- C5: Degree-bound invariant: every honest round polynomial has degree at
most the maximum exponent of the solved variable across all terms of `g`
(the `max_degrees` scan); and `verify` checks exactly this bound for every
round before running `part_verify`, aborting fatally on violation. -/
theorem C5_degree_invariant :
    (∀ (s : ProverState F) (v_msg : Option (VerifierMsg F)) (msg : ProverMsg F)
        (s' : ProverState F),
      prove_round s v_msg = .ok (msg, s') →
      s'.randomness.length < s.g.num_vars →
      msg.gi.degreeOf ≤ (max_degrees s.g).getD s'.randomness.length 0)
    ∧ (∀ (g : MultiPoly F) (s : VerifierState F) (a : F),
      (((List.range s.num_vars).all (fun i =>
          decide ((s.part_sums.getD i ⟨[]⟩).degreeOf
            ≤ (max_degrees g).getD i 0))) = false →
        verify g s a = .error "assertion failed: degree bound violated")
      ∧ (((List.range s.num_vars).all (fun i =>
          decide ((s.part_sums.getD i ⟨[]⟩).degreeOf
            ≤ (max_degrees g).getD i 0))) = true →
        verify g s a = match part_verify s a with
          | .error msg => .error msg
          | .ok (.ok v_out) =>
            if g.evaluate v_out.r_vec = v_out.expected_evaluation then .ok (.ok ())
            else .ok (.error (Error.Reject (some "Verification failed.")))
          | .ok (.error _) =>
            .ok (.error (Error.Reject (some "Partial verification failed."))))) := by
  constructor
  · intro s v_msg msg s' h hj
    obtain ⟨_, _, _, hgi⟩ := prove_round_inv s v_msg msg s' h
    rw [hgi]
    exact gen_uni_body_degree_le s.g s'.randomness hj
  · intro g s a
    constructor
    · intro hfalse
      unfold verify
      rw [if_neg (by rw [hfalse]; simp)]
    · intro htrue
      unfold verify
      rw [if_pos htrue]

set_option maxHeartbeats 1600000 in
/-- Witness for C5: the first Thaler round polynomial `1 + 2x + 8x^3` has
degree 3, the maximum exponent of variable 0. -/
theorem C5_degree_invariant_witness :
    prove_round (⟨gEx, [], 0⟩ : ProverState Int) none
        = .ok (⟨⟨[(0, 1), (1, 2), (3, 8)]⟩⟩, ⟨gEx, [], 1⟩)
    ∧ (⟨gEx, [], 1⟩ : ProverState Int).randomness.length < gEx.num_vars
    ∧ (⟨⟨[(0, 1), (1, 2), (3, 8)]⟩⟩ : ProverMsg Int).gi.degreeOf
        ≤ (max_degrees gEx).getD
            (⟨gEx, [], 1⟩ : ProverState Int).randomness.length 0 :=
  ⟨by decide, by decide,
    (C5_degree_invariant (F := Int)).1 ⟨gEx, [], 0⟩ none
      ⟨⟨[(0, 1), (1, 2), (3, 8)]⟩⟩ ⟨gEx, [], 1⟩ (by decide) (by decide)⟩

/-- C6 counterexample: at `i = 0`, `nu = 0` the source renders the digit
string "0", so the result has one element, not `nu = 0` of them — the claim
"returns a sequence of exactly nu field elements" fails at this input even
though `i < 2^nu`. -/
theorem C6_counterexample :
    (0 : Nat) < 2 ^ (0 : Nat)
      ∧ ¬ ((to_binary_vec (F := Int) 0 0).length = 0) := by decide

/-- C6 (amended): for every bit-width `nu ≥ 1` and `i < 2^nu`,
`to_binary_vec` returns exactly `nu` field elements, each 0 or 1, the image
of the zero-padded big-endian digit string of `i`; decoding that digit
string (big-endian) reproduces `i`. -/
theorem C6_binary_indexer (i nu : Nat) (hnu : 1 ≤ nu) (hi : i < 2 ^ nu) :
    (to_binary_vec (F := F) i nu).length = nu
    ∧ (∀ y ∈ to_binary_vec (F := F) i nu, y = 0 ∨ y = 1)
    ∧ to_binary_vec (F := F) i nu = (padTo nu (natBits i)).map ofBit
    ∧ fromBitsBE (padTo nu (natBits i)) = i := by
  refine ⟨?_, ?_, rfl, fromBitsBE_padTo_natBits nu i⟩
  · rw [to_binary_vec_length]
    have := natBits_length_le nu i hnu hi
    omega
  · intro y hy
    rcases List.mem_map.mp hy with ⟨b, hb, hmap⟩
    rcases padTo_natBits_mem nu i b hb with h | h
    · left
      rw [← hmap, h]
      simp [ofBit]
    · right
      rw [← hmap, h]
      simp [ofBit]

/-- Witness for C6 (amended): `i = 5`, `nu = 3` gives `[1, 0, 1]`. -/
theorem C6_binary_indexer_witness :
    1 ≤ 3 ∧ 5 < 2 ^ 3
    ∧ ((to_binary_vec (F := Int) 5 3).length = 3
      ∧ (∀ y ∈ to_binary_vec (F := Int) 5 3, y = 0 ∨ y = 1)
      ∧ to_binary_vec (F := Int) 5 3 = (padTo 3 (natBits 5)).map ofBit
      ∧ fromBitsBE (padTo 3 (natBits 5)) = 5) :=
  ⟨by decide, by decide, C6_binary_indexer 5 3 (by decide) (by decide)⟩

/-- C7: the `prove_round` precondition checks are fatal: a round index beyond
`num_vars`, a first call carrying a challenge, or a later call carrying none,
each yields the corresponding panic; in particular two consecutive calls with
no intervening challenge hit the fatal path. -/
theorem C7_prove_round_fatal :
    (∀ (s : ProverState F) (v_msg : Option (VerifierMsg F)),
      s.g.num_vars < s.round →
      prove_round s v_msg = .error "Prover is no longer active...")
    ∧ (∀ (s : ProverState F) (m : VerifierMsg F),
      ¬ s.g.num_vars < s.round → s.round = 0 →
      prove_round s (some m) = .error "Prover should go first...")
    ∧ (∀ s : ProverState F,
      ¬ s.g.num_vars < s.round → 0 < s.round →
      prove_round s none = .error "Verifier message should not be empty...")
    ∧ (∀ (g : MultiPoly F) (msg1 : ProverMsg F) (s1 : ProverState F),
      1 ≤ g.num_vars →
      prove_round (⟨g, [], 0⟩ : ProverState F) none = .ok (msg1, s1) →
      prove_round s1 none
        = .error "Verifier message should not be empty...") := by
  refine ⟨fun s v h => prove_round_err_active s v h,
    fun s m h1 h2 => prove_round_err_first s m h1 h2,
    fun s h1 h2 => prove_round_err_empty s h1 h2,
    fun g msg1 s1 hn h => ?_⟩
  obtain ⟨hg, hr, _, _⟩ := prove_round_inv _ none msg1 s1 h
  refine prove_round_err_empty s1 ?_ ?_
  · rw [hg]
    show ¬ g.num_vars < s1.round
    rw [hr]
    show ¬ g.num_vars < 0 + 1
    omega
  · rw [hr]
    omega

set_option maxHeartbeats 1600000 in
/-- Witness for C7: on the Thaler example, a second round-advance with no
intervening challenge hits the fatal path. -/
theorem C7_prove_round_fatal_witness :
    1 ≤ gEx.num_vars
    ∧ prove_round (⟨gEx, [], 0⟩ : ProverState Int) none
        = .ok (⟨⟨[(0, 1), (1, 2), (3, 8)]⟩⟩, ⟨gEx, [], 1⟩)
    ∧ prove_round (⟨gEx, [], 1⟩ : ProverState Int) none
        = .error "Verifier message should not be empty..." :=
  ⟨by decide, by decide,
    (C7_prove_round_fatal (F := Int)).2.2.2 gEx ⟨⟨[(0, 1), (1, 2), (3, 8)]⟩⟩
      ⟨gEx, [], 1⟩ (by decide) (by decide)⟩

/-- C8: `verify_round` panics on a finished state; otherwise it appends the
sampled challenge and the received polynomial, finishes exactly when
`round = num_vars` and otherwise increments the round, and no further round
is accepted once finished. -/
theorem C8_verify_round :
    (∀ (p_msg : ProverMsg F) (s : VerifierState F) (r : F),
      s.finished = true →
      verify_round p_msg s r
        = .error "Incorrect verifier state: Verifier is already finished...")
    ∧ (∀ (p_msg : ProverMsg F) (s : VerifierState F) (r : F),
      s.finished = false →
      verify_round p_msg s r
        = .ok (some ⟨r⟩,
            ⟨if s.round = s.num_vars then s.round else s.round + 1, s.num_vars,
              decide (s.round = s.num_vars), s.part_sums ++ [p_msg.gi],
              s.randomness ++ [r]⟩)) := by
  constructor
  · intro p_msg s r h
    unfold verify_round
    rw [if_pos h]
  · intro p_msg s r h
    rw [verify_round_ok p_msg s r h]
    by_cases hr : s.round = s.num_vars
    · simp only [if_pos hr]
      rw [show decide (s.round = s.num_vars) = true from by simp [hr]]
    · simp only [if_neg hr]
      rw [show decide (s.round = s.num_vars) = false from by simp [hr]]

/-- Witness for C8: one fresh verifier round on a two-round verifier, and the
fatal path on the already-finished state `vsEx`. -/
theorem C8_verify_round_witness :
    ((verifier_init 2 : VerifierState Int).finished = false
      ∧ verify_round (⟨⟨[(1, 1)]⟩⟩ : ProverMsg Int) (verifier_init 2) 7
          = .ok (some ⟨7⟩, ⟨2, 2, false, [⟨[(1, 1)]⟩], [7]⟩))
    ∧ (vsEx.finished = true
      ∧ verify_round (⟨⟨[(1, 1)]⟩⟩ : ProverMsg Int) vsEx 7
          = .error "Incorrect verifier state: Verifier is already finished...") :=
  ⟨⟨by decide,
    (C8_verify_round (F := Int)).2 ⟨⟨[(1, 1)]⟩⟩ (verifier_init 2) 7 (by decide)⟩,
   ⟨by decide,
    (C8_verify_round (F := Int)).1 ⟨⟨[(1, 1)]⟩⟩ vsEx 7 (by decide)⟩⟩

/-- C9 counterexample: after the first honest round on the Thaler example the
prover state has `round = 1` but `len(randomness) = 0`, so the invariant
"`len(randomness) == round` before round `round+1` begins" fails at the
at-rest state between rounds 1 and 2. -/
theorem C9_counterexample :
    prove_round (⟨gEx, [], 0⟩ : ProverState Int) none
        = .ok (⟨⟨[(0, 1), (1, 2), (3, 8)]⟩⟩, ⟨gEx, [], 1⟩)
    ∧ (⟨gEx, [], 1⟩ : ProverState Int).round = 1
    ∧ (⟨gEx, [], 1⟩ : ProverState Int).randomness.length = 0
    ∧ ¬ ((⟨gEx, [], 1⟩ : ProverState Int).randomness.length
        = (⟨gEx, [], 1⟩ : ProverState Int).round) := by decide

/-- C9 (amended): each successful `prove_round` mutates only the randomness
(appending the single incoming challenge when present, nothing otherwise) and
the round counter (incrementing it by one), leaving `g` unchanged; and in
every honest run the at-rest state after `k` rounds has
`len(randomness) = round - 1 = k - 1` (rounds `k ≥ 1`; at round 0 both are
0), i.e. `len(randomness) == round` only holds again once the next round's
incoming challenge has been absorbed. -/
theorem C9_frame_invariant :
    (∀ (s : ProverState F) (v_msg : Option (VerifierMsg F)) (msg : ProverMsg F)
        (s' : ProverState F),
      prove_round s v_msg = .ok (msg, s') →
      s'.g = s.g ∧ s'.round = s.round + 1 ∧
      s'.randomness = s.randomness
        ++ (match v_msg with | some m => [m.randomness] | none => []))
    ∧ (∀ (g : MultiPoly F) (rs : List F) (k : Nat),
      1 ≤ g.num_vars → k ≤ rs.length → rs.length ≤ g.num_vars →
      ∃ (ps : ProverState F) (vs : VerifierState F),
        runLoop (⟨g, [], 0⟩ : ProverState F) (verifier_init g.num_vars) none
            (rs.take k) = .ok (ps, vs)
        ∧ ps.round = k ∧ ps.randomness.length = k - 1) := by
  constructor
  · intro s v_msg msg s' h
    obtain ⟨hg, hr, hrand, _⟩ := prove_round_inv s v_msg msg s' h
    refine ⟨hg, hr, ?_⟩
    match v_msg with
    | some m => exact hrand
    | none => exact hrand
  · intro g rs k hn hk hlen
    have hrun := runLoop_run g (rs.take k) hn
      (by rw [List.length_take]; omega)
    refine ⟨_, _, hrun, ?_, ?_⟩
    · show (rs.take k).length = k
      rw [List.length_take]
      omega
    · show (rs.take k).dropLast.length = k - 1
      rw [List.length_dropLast, List.length_take]
      omega

set_option maxHeartbeats 1600000 in
/-- Witness for C9 (amended): one absorbed challenge on the Thaler example,
and the honest two-round prefix with challenges 2, 3, 4. -/
theorem C9_frame_invariant_witness :
    (prove_round (⟨gEx, [], 1⟩ : ProverState Int) (some ⟨2⟩)
        = .ok (⟨⟨[(0, 34), (1, 1)]⟩⟩, ⟨gEx, [2], 2⟩)
      ∧ ((⟨gEx, [2], 2⟩ : ProverState Int).g = (⟨gEx, [], 1⟩ : ProverState Int).g
        ∧ (⟨gEx, [2], 2⟩ : ProverState Int).round
            = (⟨gEx, [], 1⟩ : ProverState Int).round + 1
        ∧ (⟨gEx, [2], 2⟩ : ProverState Int).randomness
            = (⟨gEx, [], 1⟩ : ProverState Int).randomness
              ++ (match (some (⟨2⟩ : VerifierMsg Int)) with
                  | some m => [m.randomness] | none => [])))
    ∧ (1 ≤ gEx.num_vars ∧ 2 ≤ ([2, 3, 4] : List Int).length
      ∧ ([2, 3, 4] : List Int).length ≤ gEx.num_vars
      ∧ ∃ (ps : ProverState Int) (vs : VerifierState Int),
        runLoop (⟨gEx, [], 0⟩ : ProverState Int) (verifier_init gEx.num_vars)
            none (([2, 3, 4] : List Int).take 2) = .ok (ps, vs)
        ∧ ps.round = 2 ∧ ps.randomness.length = 2 - 1) :=
  ⟨⟨by decide,
    (C9_frame_invariant (F := Int)).1 ⟨gEx, [], 1⟩ (some ⟨2⟩)
      ⟨⟨[(0, 34), (1, 1)]⟩⟩ ⟨gEx, [2], 2⟩ (by decide)⟩,
   ⟨by decide, by decide, by decide,
    (C9_frame_invariant (F := Int)).2 gEx [2, 3, 4] 2
      (by decide) (by decide) (by decide)⟩⟩

/-- C10: `to_binary_vec` is total and never signals the out-of-range case:
for every `i` and `nu` it returns a vector of length
`max nu (bit-length of i)` (the bit-length of `i` being the digit count of
`format!("{:b}", i)`, pinned down by the two power bounds); when `2^nu ≤ i`
the result therefore has more than `nu` elements, so violating the caller's
bound is not detected by the indexer itself. -/
theorem C10_to_binary_vec_total (i nu : Nat) :
    (to_binary_vec (F := F) i nu).length = max nu (natBits i).length
    ∧ i < 2 ^ (natBits i).length
    ∧ (1 ≤ i → 2 ^ ((natBits i).length - 1) ≤ i)
    ∧ (2 ^ nu ≤ i → nu < (to_binary_vec (F := F) i nu).length) := by
  have hlt : i < 2 ^ (natBits i).length := by
    by_cases h0 : i = 0
    · simp [h0, natBits]
    · rw [natBits, if_neg h0]
      exact lt_two_pow_bitsAux_length i
  refine ⟨to_binary_vec_length i nu, hlt, ?_, ?_⟩
  · intro h1
    rw [natBits, if_neg (by omega)]
    exact two_pow_le_bitsAux_length i h1
  · intro hge
    rw [to_binary_vec_length]
    have hgt : nu < (natBits i).length := by
      by_contra hle
      push_neg at hle
      have : (2 : Nat) ^ (natBits i).length ≤ 2 ^ nu :=
        Nat.pow_le_pow_right (by omega) hle
      omega
    omega

/-- Witness for C10: `i = 5`, `nu = 2` yields the 3-element vector
`[1, 0, 1]`, exceeding the requested width. -/
theorem C10_to_binary_vec_total_witness :
    2 ^ 2 ≤ 5
    ∧ (to_binary_vec (F := Int) 5 2).length = max 2 (natBits 5).length
    ∧ (1 ≤ 5 → 2 ^ ((natBits 5).length - 1) ≤ 5)
    ∧ 2 < (to_binary_vec (F := Int) 5 2).length :=
  ⟨by decide, (C10_to_binary_vec_total (F := Int) 5 2).1,
    (C10_to_binary_vec_total (F := Int) 5 2).2.2.1,
    (C10_to_binary_vec_total (F := Int) 5 2).2.2.2 (by decide)⟩

end Sumcheck
